import Mathlib

/-!
A verification development for two components of the repository:

* `xen/common/rangeset.c` — the generic interval-set data structure
  (`rangeset_add_range`, `rangeset_remove_range`, `rangeset_swap`, …),
  embedded as pure functions over a list of inclusive ranges together
  with the allocation-headroom counter `nr_ranges`.

* `xen/arch/arm/coproc/coproc.c` — the coprocessor virtualization core
  (`vcoproc_context_switch`, `coproc_attach_to_domain`,
  `coproc_detach_from_domain`, `vcoproc_domain_init`, `coproc_register`),
  embedded with the driver contract (`struct vcoproc_ops`) and the
  scheduler hooks as abstract parameters, since their implementations
  live outside this file set.

Machine words (`unsigned long`) are modelled as `Nat`.  Every
subtraction the embedded code performs is guarded in the source by a
comparison that keeps it non-negative, and every `+ 1` except one is
guarded by a comparison that keeps it below `2^64`, so plain `Nat`
arithmetic agrees with the C unsigned arithmetic at those sites on all
representable inputs.  The single unguarded site — `x->s = e + 1` in
the `x != y` arm of `rangeset_remove_range`, which wraps to `0` at
`e = ULONG_MAX` — carries an explicit `% 2 ^ 64`.  Error codes are
modelled as negative `Int`s, matching `-ENOMEM` etc.
-/

namespace XenVerify

/-! ## Error codes (include/asm-generic/errno.h values used by the sources) -/

def ENOMEM : Int := 12
def EBUSY : Int := 16
def EEXIST : Int := 17
def ENODEV : Int := 19
def EINVAL : Int := 22
def ENOSYS : Int := 38
def ERESTART : Int := 85

/-! ## RangeSet: data model

`struct range` from rangeset.c: an inclusive range `[s, e]`.
`struct rangeset`: the ordered list of ranges, the allocation headroom
counter `nr_ranges` (`-1` on a fresh set means "unlimited":
`alloc_range` only refuses when it is exactly `0`), the name and flags.
The locks have no effect on the functional state and are omitted.
-/

structure Range where
  s : Nat
  e : Nat
deriving Repr, DecidableEq

structure Rangeset where
  range_list : List Range
  nr_ranges : Int
  name : String
  flags : Nat
deriving Repr, DecidableEq

/-- `find_range` from rangeset.c scans the list in order, remembers the
last range `y` with `y.s ≤ s`, and stops at the first range with
`y.s > s`.  We embed the scan as a split of the list into the scanned
prefix and the remainder; the C function's return value `x` is the last
element of the prefix (`none` standing for `NULL`). -/
def find_split (s : Nat) : List Range → List Range × List Range
  | [] => ([], [])
  | y :: t =>
    if s < y.s then ([], y :: t)
    else (y :: (find_split s t).1, (find_split s t).2)

/-- The value returned by C `find_range`: last range of the scanned prefix. -/
def find_range (l : List Range) (s : Nat) : Option Range :=
  (find_split s l).1.getLast?

/-- `alloc_range` fails exactly when `nr_ranges == 0`; otherwise
(`xmalloc` modelled as always succeeding) it decrements `nr_ranges`.
`destroy_range` increments it.  The tail of both `rangeset_add_range`
branches — `y = next_range(x); if (y && x->e + 1 == y->s) { x->e = y->e;
destroy_range(y); }` — merges the updated/inserted range `x` with its
successor when they became adjacent.  `pre` is the part of the list
before `x`, `suf` the part after it. -/
def coalesce (pre : List Range) (x : Range) (suf : List Range)
    (nr : Int) : List Range × Int :=
  match suf with
  | [] => (pre ++ [x], nr)
  | y :: t =>
    if x.e + 1 = y.s then (pre ++ Range.mk x.s y.e :: t, nr + 1)
    else (pre ++ x :: y :: t, nr)

/-- The destroy loop in the `x != y` arm of `rangeset_add_range`:
starting from the successor of `x`, destroy ranges while their end does
not exceed `x->e`, stopping at the first survivor (or the list end). -/
def destroy_while (xe : Nat) : List Range → Int → List Range × Int
  | [], nr => ([], nr)
  | y :: t, nr =>
    if xe < y.e then (y :: t, nr)
    else destroy_while xe t (nr + 1)

/-- `rangeset_add_range(r, s, e)` from rangeset.c.

The list decomposes as `As ++ M ++ B` where `As` is the prefix scanned
by `find_range(r, s)`, `As ++ M` the prefix scanned by `find_range(r, e)`
(`find_split` at `s` produces a prefix of the split at `e` whenever
`s ≤ e`), and `B` the remainder.  The C pointers are `x = last of As`
and `y = last of (As ++ M)`; pointer equality `x == y` is equality of
the two prefix lengths.  In the `x != y` arm, the node the code goes on
to mutate is either `x` itself or — after `x = next_range(r, x)` /
`x = first_range(r)` — the head of `M`; the subsequent destroy loop
consumes successors of that node, and the final adjacency merge is
`coalesce`.  `-ENOMEM` aborts without touching the set. -/
def rangeset_add_range (r : Rangeset) (s e : Nat) : Int × Rangeset :=
  let As := (find_split s r.range_list).1
  let Ae := (find_split e r.range_list).1
  let B := (find_split e r.range_list).2
  if As.length = Ae.length then
    -- x == y
    match As.getLast? with
    | none =>
      -- x == NULL: allocate and insert [s, e] as the first range
      if r.nr_ranges = 0 then (-ENOMEM, r)
      else
        let p := coalesce [] (Range.mk s e) B (r.nr_ranges - 1)
        (0, { r with range_list := p.1, nr_ranges := p.2 })
    | some x =>
      if x.e < s ∧ x.e + 1 ≠ s then
        -- disjoint, non-adjacent on the left: allocate, insert after x
        if r.nr_ranges = 0 then (-ENOMEM, r)
        else
          let p := coalesce As (Range.mk s e) B (r.nr_ranges - 1)
          (0, { r with range_list := p.1, nr_ranges := p.2 })
      else if x.e < e then
        -- x->e = e
        let p := coalesce As.dropLast (Range.mk x.s e) B r.nr_ranges
        (0, { r with range_list := p.1, nr_ranges := p.2 })
      else
        -- [s, e] already contained in x; only the trailing merge check runs
        let p := coalesce As.dropLast x B r.nr_ranges
        (0, { r with range_list := p.1, nr_ranges := p.2 })
  else
    -- x != y; M is nonempty and y is its last element
    let M := Ae.drop As.length
    let y := Ae.getLast?.getD (Range.mk 0 0)
    let step : List Range × Range × List Range :=
      match As.getLast? with
      | none =>
        -- x = first_range(r); x->s = s
        ([], Range.mk s ((M.head?.getD (Range.mk 0 0)).e), M.tail ++ B)
      | some x =>
        if x.e < s ∧ x.e + 1 ≠ s then
          -- x = next_range(r, x); x->s = s
          (As, Range.mk s ((M.head?.getD (Range.mk 0 0)).e), M.tail ++ B)
        else (As.dropLast, x, M ++ B)
    -- x->e = (y->e > e) ? y->e : e
    let w := Range.mk step.2.1.s (max y.e e)
    let p1 := destroy_while w.e step.2.2 r.nr_ranges
    let p2 := coalesce step.1 w p1.1 p1.2
    (0, { r with range_list := p2.1, nr_ranges := p2.2 })

/-- `rangeset_remove_range(r, s, e)` from rangeset.c, with the same
`As ++ M ++ B` decomposition as `rangeset_add_range`.

In the `x != y` arm the C code truncates `x` to `[x->s, s-1]` when
`x->s < s` (guarded: then `s >= 1`, so the subtraction cannot wrap;
otherwise `x` itself is destroyed by the loop), destroys every node
strictly between the working node and `y` — in list terms the whole of
`M` except `y` —, then executes `x->s = e + 1; if (x->s > x->e)
destroy_range(x)` on `y`.  That `e + 1` is unsigned and unguarded: at
`e = ULONG_MAX` it wraps to `0` and the mutated range survives the
destroy test, so it is modelled with an explicit `% 2 ^ 64`.  (The two
`e + 1` writes in the `x == y` arm only run under `e < x->e`, hence
cannot wrap on representable inputs and stay plain.)  `step.2` counts
the `destroy_range` calls of the loop, each of which increments
`nr_ranges`. -/
def rangeset_remove_range (r : Rangeset) (s e : Nat) : Int × Rangeset :=
  let As := (find_split s r.range_list).1
  let Ae := (find_split e r.range_list).1
  let B := (find_split e r.range_list).2
  if As.length = Ae.length then
    -- x == y
    match As.getLast? with
    | none => (0, r)
    | some x =>
      if x.e < s then (0, r)
      else if x.s < s ∧ e < x.e then
        -- strict interior: split x, allocating the upper part
        if r.nr_ranges = 0 then (-ENOMEM, r)
        else
          (0, { r with
                  range_list :=
                    As.dropLast ++ Range.mk x.s (s - 1) :: Range.mk (e + 1) x.e :: B,
                  nr_ranges := r.nr_ranges - 1 })
      else if x.s = s ∧ x.e ≤ e then
        (0, { r with range_list := As.dropLast ++ B,
                     nr_ranges := r.nr_ranges + 1 })
      else if x.s = s then
        (0, { r with range_list := As.dropLast ++ Range.mk (e + 1) x.e :: B })
      else if x.e ≤ e then
        (0, { r with range_list := As.dropLast ++ Range.mk x.s (s - 1) :: B })
      else (0, r)
  else
    -- x != y; M is nonempty and y is its last element
    let M := Ae.drop As.length
    let y := Ae.getLast?.getD (Range.mk 0 0)
    let step : List Range × Nat :=
      match As.getLast? with
      | none => ([], M.length - 1)
      | some x =>
        if x.s < s then (As.dropLast ++ [Range.mk x.s (s - 1)], M.length - 1)
        else (As.dropLast, M.length)
    -- x->s = e + 1 (rangeset.c:240): unsigned, wraps at e = ULONG_MAX
    let ns := (e + 1) % 2 ^ 64
    if y.e < ns then
      (0, { r with range_list := step.1 ++ B,
                   nr_ranges := r.nr_ranges + step.2 + 1 })
    else
      (0, { r with range_list := step.1 ++ Range.mk ns y.e :: B,
                   nr_ranges := r.nr_ranges + step.2 })

/-- `rangeset_swap(a, b)` from rangeset.c: the three `list_splice`
calls exchange exactly the two `range_list` contents; every other field
of both sets stays in place. -/
def rangeset_swap (a b : Rangeset) : Rangeset × Rangeset :=
  ({ a with range_list := b.range_list }, { b with range_list := a.range_list })

/-- A fresh set from `rangeset_new`: empty list, `nr_ranges = -1`. -/
def rangeset_new (name : String) (flags : Nat) : Rangeset :=
  { range_list := [], nr_ranges := -1, name := name, flags := flags }

/-- `rangeset_limit(r, limit)`: install the headroom counter. -/
def rangeset_limit (r : Rangeset) (limit : Nat) : Rangeset :=
  { r with nr_ranges := (limit : Int) }

example :
    rangeset_add_range (rangeset_new "t" 0) 10 20 =
      (0, { range_list := [Range.mk 10 20], nr_ranges := -2,
            name := "t", flags := 0 }) := by decide

example :
    (rangeset_add_range
      (rangeset_add_range
        (rangeset_add_range (rangeset_new "t" 0) 10 20).2 21 30).2 5 9).2.range_list =
      [Range.mk 5 30] := by decide

example :
    (rangeset_remove_range
      { range_list := [Range.mk 0 100], nr_ranges := -2, name := "t", flags := 0 }
      40 50).2.range_list = [Range.mk 0 39, Range.mk 51 100] := by decide

example :
    let r0 := rangeset_limit (rangeset_new "t" 0) 1
    let r1 := (rangeset_add_range r0 0 0).2
    rangeset_add_range r1 2 2 = (-ENOMEM, r1) := by decide

example :
    let r0 := rangeset_limit (rangeset_new "t" 0) 1
    let r1 := (rangeset_add_range r0 0 0).2
    (rangeset_add_range r1 1 1).2.range_list = [Range.mk 0 1] := by decide

/-! ## RangeSet: canonical form

The invariant of §4.4: each stored range is well-formed (`s ≤ e`), and
consecutive stored ranges are separated by a gap of at least one value
(`x.e + 1 < y.s`), which given well-formedness makes the starts
strictly ascending and the ranges pairwise non-overlapping and
non-adjacent.
-/

/-- Consecutive-range separation: `x` ends at least two below the start of `y`. -/
abbrev rangeGap (a b : Range) : Prop := a.e + 1 < b.s

/-- Canonical form of a stored range list. -/
def canonical (l : List Range) : Prop :=
  (∀ x ∈ l, x.s ≤ x.e) ∧ l.Chain' rangeGap

instance (l : List Range) : Decidable (canonical l) :=
  inferInstanceAs (Decidable ((∀ x ∈ l, x.s ≤ x.e) ∧ l.Chain' rangeGap))

/-! ### find_split lemmas -/

theorem find_split_append (s : Nat) (l : List Range) :
    (find_split s l).1 ++ (find_split s l).2 = l := by
  induction l with
  | nil => rfl
  | cons y t ih =>
    simp only [find_split]
    split
    · rfl
    · simpa using ih

theorem find_split_left_le (s : Nat) (l : List Range) :
    ∀ a ∈ (find_split s l).1, a.s ≤ s := by
  induction l with
  | nil => simp [find_split]
  | cons y t ih =>
    simp only [find_split]
    split
    · simp
    · intro a ha
      rcases List.mem_cons.1 ha with h | h
      · subst h; omega
      · exact ih a h

theorem find_split_right_head (s : Nat) (l : List Range) :
    ∀ y ∈ (find_split s l).2.head?, s < y.s := by
  induction l with
  | nil => simp [find_split]
  | cons y t ih =>
    simp only [find_split]
    split
    · simpa
    · exact ih

theorem find_split_eq_of (s : Nat) (P Q : List Range)
    (hP : ∀ p ∈ P, p.s ≤ s) (hQ : ∀ y ∈ Q.head?, s < y.s) :
    find_split s (P ++ Q) = (P, Q) := by
  induction P with
  | nil =>
    cases Q with
    | nil => rfl
    | cons q t =>
      simp only [List.nil_append, find_split]
      rw [if_pos (by simpa using hQ q)]
  | cons p t ih =>
    simp only [List.cons_append, find_split]
    rw [if_neg (by have := hP p (by simp); omega)]
    have h := ih (fun a ha => hP a (by simp [ha]))
    simp only [List.append_eq] at h ⊢
    rw [h]

theorem find_split_mono (s e : Nat) (l : List Range) (hse : s ≤ e) :
    find_split e l =
      ((find_split s l).1 ++ (find_split e (find_split s l).2).1,
        (find_split e (find_split s l).2).2) := by
  induction l with
  | nil => rfl
  | cons y t ih =>
    by_cases h1 : s < y.s
    · simp [find_split, if_pos h1]
    · have h2 : ¬ e < y.s := by omega
      simp [find_split, if_neg h1, if_neg h2, ih]

/-! ### canonical decomposition lemmas -/

theorem canonical_head_gap {y : Range} {t : List Range}
    (hwf : ∀ x ∈ y :: t, x.s ≤ x.e) (hch : List.Chain' rangeGap (y :: t)) :
    ∀ z ∈ t, y.e + 1 < z.s := by
  induction t generalizing y with
  | nil => simp
  | cons z t ih =>
    intro w hw
    have hyz : rangeGap y z := List.chain'_cons.1 hch |>.1
    rcases List.mem_cons.1 hw with h | h
    · subst h; exact hyz
    · have hz : z.s ≤ z.e := hwf z (by simp)
      have := ih (fun x hx => hwf x (List.mem_cons_of_mem _ hx))
        (List.chain'_cons.1 hch).2 w h
      simp only [rangeGap] at *
      omega

theorem canonical_ends_le {l : List Range} {x : Range}
    (hwf : ∀ z ∈ l, z.s ≤ z.e) (hch : List.Chain' rangeGap l)
    (hx : l.getLast? = some x) : ∀ z ∈ l, z.e ≤ x.e := by
  induction l with
  | nil => simp
  | cons y t ih =>
    intro z hz
    cases t with
    | nil =>
      simp at hx hz
      subst hx; subst hz; rfl
    | cons a t' =>
      have hx' : (a :: t').getLast? = some x := by
        rw [← hx]; rfl
      have hxmem : x ∈ a :: t' := List.mem_of_mem_getLast? hx'
      rcases List.mem_cons.1 hz with h | h
      · subst h
        have := canonical_head_gap hwf hch x hxmem
        have hxw : x.s ≤ x.e := hwf x (List.mem_cons_of_mem _ hxmem)
        omega
      · exact ih (fun w hw => hwf w (List.mem_cons_of_mem _ hw))
          (List.chain'_cons.1 hch).2 hx' z h

/-- All elements of the remainder of a split of a canonical list start
strictly above the split point. -/
theorem find_split_right_all {l : List Range} (e : Nat) (hc : canonical l) :
    ∀ z ∈ (find_split e l).2, e < z.s := by
  obtain ⟨hwf, hch⟩ := hc
  have happ := find_split_append e l
  have hsuf : (find_split e l).2 <:+ l := ⟨(find_split e l).1, happ⟩
  have hchB : List.Chain' rangeGap (find_split e l).2 := hch.suffix hsuf
  intro z hz
  cases hB : (find_split e l).2 with
  | nil => simp [hB] at hz
  | cons b t =>
    have hb : e < b.s := by
      have := find_split_right_head e l
      rw [hB] at this
      simpa using this
    rw [hB] at hz
    rcases List.mem_cons.1 hz with h | h
    · subst h; exact hb
    · have hwfB : ∀ x ∈ b :: t, x.s ≤ x.e := by
        intro x hx
        exact hwf x (hsuf.subset (hB ▸ hx))
      have := canonical_head_gap hwfB (hB ▸ hchB) z h
      have hbwf : b.s ≤ b.e := hwfB b (by simp)
      omega

/-! ### coalesce and destroy_while lemmas -/

theorem coalesce_canonical {pre suf : List Range} {w : Range} {nr : Int}
    (hpre_wf : ∀ x ∈ pre, x.s ≤ x.e) (hpre_ch : List.Chain' rangeGap pre)
    (hw : w.s ≤ w.e)
    (hsuf_wf : ∀ x ∈ suf, x.s ≤ x.e) (hsuf_ch : List.Chain' rangeGap suf)
    (hb : ∀ p ∈ pre.getLast?, rangeGap p w)
    (hr : ∀ h ∈ suf.head?, w.e + 1 ≤ h.s) :
    canonical (coalesce pre w suf nr).1 := by
  cases suf with
  | nil =>
    simp only [coalesce]
    constructor
    · intro x hx
      rcases List.mem_append.1 hx with h | h
      · exact hpre_wf x h
      · simp at h; subst h; exact hw
    · rw [List.chain'_append]
      refine ⟨hpre_ch, List.chain'_singleton _, ?_⟩
      intro p hp y hy
      simp at hy; subst hy; exact hb p hp
  | cons b t =>
    have hbs : w.e + 1 ≤ b.s := hr b rfl
    have hbwf : b.s ≤ b.e := hsuf_wf b (by simp)
    simp only [coalesce]
    split
    · next hadj =>
      constructor
      · intro x hx
        rcases List.mem_append.1 hx with h | h
        · exact hpre_wf x h
        · rcases List.mem_cons.1 h with h' | h'
          · subst h'; simp only; omega
          · exact hsuf_wf x (by simp [h'])
      · rw [List.chain'_append]
        refine ⟨hpre_ch, ?_, ?_⟩
        · refine List.chain'_cons'.2 ⟨?_, (List.chain'_cons'.1 hsuf_ch).2⟩
          intro h hh
          have := (List.chain'_cons'.1 hsuf_ch).1 h hh
          simpa [rangeGap] using this
        · intro p hp y hy
          simp at hy; subst hy
          have := hb p hp
          simpa [rangeGap] using this
    · next hadj =>
      constructor
      · intro x hx
        rcases List.mem_append.1 hx with h | h
        · exact hpre_wf x h
        · rcases List.mem_cons.1 h with h' | h'
          · subst h'; exact hw
          · exact hsuf_wf x h'
      · rw [List.chain'_append]
        refine ⟨hpre_ch, ?_, ?_⟩
        · exact List.chain'_cons.2 ⟨by simp only [rangeGap]; omega, hsuf_ch⟩
        · intro p hp y hy
          simp at hy; subst hy; exact hb p hp

theorem coalesce_nr_ge (pre : List Range) (w : Range) (suf : List Range) (nr : Int) :
    nr ≤ (coalesce pre w suf nr).2 := by
  cases suf with
  | nil => simp [coalesce]
  | cons b t =>
    simp only [coalesce]
    split
    · simp
    · simp

theorem destroy_while_append {k : Nat} (M B : List Range) (nr : Int)
    (hM : ∀ z ∈ M, z.e ≤ k) (hB : ∀ h ∈ B.head?, k < h.e) :
    destroy_while k (M ++ B) nr = (B, nr + M.length) := by
  induction M generalizing nr with
  | nil =>
    cases B with
    | nil => simp [destroy_while]
    | cons b t =>
      have := hB b rfl
      simp [destroy_while, if_pos this]
  | cons m t ih =>
    have hm : ¬ k < m.e := by have := hM m (by simp); omega
    simp only [List.cons_append, destroy_while, if_neg hm, List.append_eq]
    rw [ih (nr + 1) (fun z hz => hM z (by simp [hz]))]
    simp only [Prod.mk.injEq, true_and, List.length_cons]
    push_cast
    ring

/-- The `x == y, x == NULL || (x->e < s && x->e + 1 != s)` branch of
`rangeset_add_range` is taken exactly when `[s, e]` neither overlaps
nor is left-adjacent to any stored range, i.e. every stored range
either ends at least two below `s` or starts strictly above `e`. -/
def needsAlloc (l : List Range) (s e : Nat) : Prop :=
  ∀ x ∈ l, x.e + 1 < s ∨ e < x.s

instance (l : List Range) (s e : Nat) : Decidable (needsAlloc l s e) :=
  inferInstanceAs (Decidable (∀ x ∈ l, x.e + 1 < s ∨ e < x.s))

theorem zero_ne_negENOMEM : ¬ ((0 : Int) = -ENOMEM) := by decide

/-! ### Behaviour of rangeset_add_range on a canonical list

The canonical list decomposes as `As ++ (M ++ B)` around the two scan
points: `As` holds the ranges starting at or below `s`, `M` those
starting in `(s, e]`, `B` those starting above `e`.  The lemma
characterizes the result on an arbitrary such decomposition: the
output is canonical; the call returns `-ENOMEM` exactly when the
headroom is zero and `[s, e]` neither overlaps nor is left-adjacent to
a stored range (only then does the code call `alloc_range`); on
`-ENOMEM` the set is untouched; otherwise it returns `0`; and when no
allocation is needed the headroom never shrinks. -/
theorem add_core_spec (nr : Int) (nm : String) (fl : Nat)
    (As M B : List Range) (s e : Nat)
    (hse : s ≤ e)
    (hc : canonical (As ++ (M ++ B)))
    (hAs : ∀ a ∈ As, a.s ≤ s)
    (hM1 : ∀ z ∈ M, s < z.s) (hM2 : ∀ z ∈ M, z.s ≤ e)
    (hB : ∀ z ∈ B, e < z.s) :
    canonical (rangeset_add_range ⟨As ++ (M ++ B), nr, nm, fl⟩ s e).2.range_list ∧
    ((rangeset_add_range ⟨As ++ (M ++ B), nr, nm, fl⟩ s e).1 = -ENOMEM ↔
      nr = 0 ∧ needsAlloc (As ++ (M ++ B)) s e) ∧
    ((rangeset_add_range ⟨As ++ (M ++ B), nr, nm, fl⟩ s e).1 = -ENOMEM →
      (rangeset_add_range ⟨As ++ (M ++ B), nr, nm, fl⟩ s e).2 = ⟨As ++ (M ++ B), nr, nm, fl⟩) ∧
    ((rangeset_add_range ⟨As ++ (M ++ B), nr, nm, fl⟩ s e).1 = -ENOMEM ∨
      (rangeset_add_range ⟨As ++ (M ++ B), nr, nm, fl⟩ s e).1 = 0) ∧
    (¬ needsAlloc (As ++ (M ++ B)) s e →
      nr ≤ (rangeset_add_range ⟨As ++ (M ++ B), nr, nm, fl⟩ s e).2.nr_ranges) := by
  have hwf : ∀ x ∈ As ++ (M ++ B), x.s ≤ x.e := hc.1
  have hch : List.Chain' rangeGap (As ++ (M ++ B)) := hc.2
  have hoptB : ∀ y ∈ B.head?, y ∈ B := by cases B <;> simp
  have hoptMB : ∀ y ∈ (M ++ B).head?, y ∈ M ++ B := by cases M <;> cases B <;> simp
  have hsB : ∀ y ∈ (M ++ B).head?, s < y.s := by
    intro y hy
    rcases List.mem_append.1 (hoptMB y hy) with h | h
    · exact hM1 y h
    · exact lt_of_le_of_lt hse (hB y h)
  have hs : find_split s (As ++ (M ++ B)) = (As, M ++ B) :=
    find_split_eq_of s As (M ++ B) hAs hsB
  have heP : ∀ p ∈ As ++ M, p.s ≤ e := by
    intro p hp
    rcases List.mem_append.1 hp with h | h
    · exact le_trans (hAs p h) hse
    · exact hM2 p h
  have heB' : ∀ y ∈ B.head?, e < y.s := fun y hy => hB y (hoptB y hy)
  have he : find_split e (As ++ (M ++ B)) = (As ++ M, B) := by
    rw [← List.append_assoc]
    exact find_split_eq_of e (As ++ M) B heP heB'
  have hchAs : List.Chain' rangeGap As := hch.left_of_append
  have hchMB : List.Chain' rangeGap (M ++ B) := hch.right_of_append
  have hchM : List.Chain' rangeGap M := hchMB.left_of_append
  have hchB : List.Chain' rangeGap B := hchMB.right_of_append
  have hbound1 : ∀ p ∈ As.getLast?, ∀ y ∈ (M ++ B).head?, rangeGap p y :=
    (List.chain'_append.1 hch).2.2
  have hbound2 : ∀ p ∈ (As ++ M).getLast?, ∀ y ∈ B.head?, rangeGap p y := by
    have h2 : List.Chain' rangeGap ((As ++ M) ++ B) := by rwa [List.append_assoc]
    exact (List.chain'_append.1 h2).2.2
  have hwfAs : ∀ x ∈ As, x.s ≤ x.e := fun x hx => hwf x (List.mem_append_left _ hx)
  have hwfM : ∀ x ∈ M, x.s ≤ x.e :=
    fun x hx => hwf x (List.mem_append_right _ (List.mem_append_left _ hx))
  have hwfB : ∀ x ∈ B, x.s ≤ x.e :=
    fun x hx => hwf x (List.mem_append_right _ (List.mem_append_right _ hx))
  simp only [rangeset_add_range]
  rw [hs, he]
  by_cases hM : M = []
  · subst hM
    rw [if_pos (by simp)]
    simp only [List.nil_append] at hsB hbound1 hchMB hoptMB ⊢
    cases hA : As.getLast? with
    | none =>
      have hAs0 : As = [] := List.getLast?_eq_none_iff.mp hA
      subst hAs0
      simp only [List.nil_append] at hwf hch ⊢
      have hna : needsAlloc B s e := fun z hz => Or.inr (hB z hz)
      by_cases hnr : nr = 0
      · rw [if_pos hnr]
        refine ⟨⟨hwfB, hchB⟩, ?_, ?_, ?_, ?_⟩
        · simp [hnr, hna]
        · intro _; rfl
        · exact Or.inl rfl
        · intro hcon; exact absurd hna hcon
      · rw [if_neg hnr]
        dsimp only
        refine ⟨?_, ?_, ?_, ?_, ?_⟩
        · apply coalesce_canonical (by simp) List.chain'_nil hse hwfB hchB (by simp)
          intro h hh
          have := heB' h hh
          simp only
          omega
        · constructor
          · intro h; exact absurd h zero_ne_negENOMEM
          · rintro ⟨h0, _⟩; exact absurd h0 hnr
        · intro h; exact absurd h zero_ne_negENOMEM
        · exact Or.inr (by simp)
        · intro hcon; exact absurd hna hcon
    | some x =>
      dsimp only
      have hAsx : As.dropLast ++ [x] = As := List.dropLast_append_getLast? x hA
      have hxAs : x ∈ As := List.mem_of_mem_getLast? hA
      have hxwf : x.s ≤ x.e := hwfAs x hxAs
      have hxs : x.s ≤ s := hAs x hxAs
      have hchA' : List.Chain' rangeGap As.dropLast := by
        have h2 : List.Chain' rangeGap (As.dropLast ++ [x]) := by rwa [hAsx]
        exact h2.left_of_append
      have hwfA' : ∀ z ∈ As.dropLast, z.s ≤ z.e := by
        intro z hz
        exact hwfAs z (by rw [← hAsx]; exact List.mem_append_left _ hz)
      have hbA' : ∀ p ∈ As.dropLast.getLast?, rangeGap p x := by
        have h2 : List.Chain' rangeGap (As.dropLast ++ [x]) := by rwa [hAsx]
        have h3 := (List.chain'_append.1 h2).2.2
        intro p hp
        exact h3 p hp x rfl
      have hBhead : ∀ h ∈ B.head?, x.e + 1 ≤ h.s := by
        intro h hh
        exact le_of_lt (hbound1 x hA h hh)
      by_cases hcond : x.e < s ∧ x.e + 1 ≠ s
      · rw [if_pos hcond]
        have hgapxs : x.e + 1 < s := by omega
        have hends : ∀ z ∈ As, z.e ≤ x.e := canonical_ends_le hwfAs hchAs hA
        have hna : needsAlloc (As ++ B) s e := by
          intro z hz
          rcases List.mem_append.1 hz with h | h
          · exact Or.inl (by have := hends z h; omega)
          · exact Or.inr (hB z h)
        by_cases hnr : nr = 0
        · rw [if_pos hnr]
          refine ⟨?_, ?_, ?_, ?_, ?_⟩
          · exact ⟨hwf, hch⟩
          · simp [hnr, hna]
          · intro _; rfl
          · exact Or.inl rfl
          · intro hcon; exact absurd hna hcon
        · rw [if_neg hnr]
          dsimp only
          refine ⟨?_, ?_, ?_, ?_, ?_⟩
          · apply coalesce_canonical hwfAs hchAs hse hwfB hchB
            · intro p hp
              rw [hA] at hp
              have hp' : x = p := by simpa using hp
              subst hp'
              exact hgapxs
            · intro h hh
              have := heB' h hh
              simp only
              omega
          · constructor
            · intro h; exact absurd h zero_ne_negENOMEM
            · rintro ⟨h0, _⟩; exact absurd h0 hnr
          · intro h; exact absurd h zero_ne_negENOMEM
          · exact Or.inr (by simp)
          · intro hcon; exact absurd hna hcon
      · rw [if_neg hcond]
        have hxe1 : s ≤ x.e + 1 := by
          by_contra hcon
          push_neg at hcon
          exact hcond ⟨by omega, by omega⟩
        have hnna : ¬ needsAlloc (As ++ B) s e := by
          intro hcon
          rcases hcon x (List.mem_append_left _ hxAs) with h | h
          · omega
          · omega
        by_cases hxe : x.e < e
        · rw [if_pos hxe]
          refine ⟨?_, ?_, ?_, ?_, ?_⟩
          · apply coalesce_canonical (w := Range.mk x.s e) hwfA' hchA'
              (show x.s ≤ e by omega) hwfB hchB
            · exact hbA'
            · intro h hh
              have := heB' h hh
              simp only
              omega
          · constructor
            · intro h; exact absurd h zero_ne_negENOMEM
            · rintro ⟨_, hcon⟩; exact absurd hcon hnna
          · intro h; exact absurd h zero_ne_negENOMEM
          · exact Or.inr (by simp)
          · intro _; exact coalesce_nr_ge _ _ _ _
        · rw [if_neg hxe]
          refine ⟨?_, ?_, ?_, ?_, ?_⟩
          · exact coalesce_canonical hwfA' hchA' hxwf hwfB hchB hbA' hBhead
          · constructor
            · intro h; exact absurd h zero_ne_negENOMEM
            · rintro ⟨_, hcon⟩; exact absurd hcon hnna
          · intro h; exact absurd h zero_ne_negENOMEM
          · exact Or.inr (by simp)
          · intro _; exact coalesce_nr_ge _ _ _ _
  · rw [if_neg (by simpa using hM)]
    rw [List.drop_left As M, List.getLast?_append_of_ne_nil As hM]
    cases hy : M.getLast? with
    | none => exact absurd (List.getLast?_eq_none_iff.mp hy) hM
    | some y =>
      simp only [Option.getD_some]
      have hymem : y ∈ M := List.mem_of_mem_getLast? hy
      have hMy : ∀ z ∈ M, z.e ≤ y.e := canonical_ends_le hwfM hchM hy
      have hyAsM : (As ++ M).getLast? = some y := by
        rw [List.getLast?_append_of_ne_nil As hM, hy]
      have hymax : ∀ h ∈ B.head?, y.e + 1 ≤ h.s := by
        intro h hh
        exact le_of_lt (hbound2 y hyAsM h hh)
      have hBe : ∀ h ∈ B.head?, max y.e e < h.e := by
        intro h hh
        have h1 := hymax h hh
        have h2 := heB' h hh
        have h3 := hwfB h (hoptB h hh)
        exact max_lt (by omega) (by omega)
      have hrB : ∀ h ∈ B.head?, max y.e e + 1 ≤ h.s := by
        intro h hh
        have h1 := hymax h hh
        have h2 := heB' h hh
        exact Nat.succ_le_of_lt (max_lt (by omega) (by omega))
      have hnnaM : ¬ needsAlloc (As ++ (M ++ B)) s e := by
        intro hcon
        have hm' : y ∈ As ++ (M ++ B) :=
          List.mem_append_right _ (List.mem_append_left _ hymem)
        rcases hcon y hm' with h | h
        · have h1 := hM1 y hymem
          have h2 := hwfM y hymem
          omega
        · have h1 := hM2 y hymem
          omega
      cases M with
      | nil => exact absurd rfl hM
      | cons m M0 =>
        have hmwf : m.s ≤ m.e := hwfM m (by simp)
        have hmM : ∀ z ∈ M0, z.e ≤ y.e := fun z hz => hMy z (by simp [hz])
        have hdw0 : destroy_while (max y.e e) (M0 ++ B) nr = (B, nr + M0.length) :=
          destroy_while_append M0 B nr
            (fun z hz => le_trans (hmM z hz) (le_max_left _ _)) hBe
        have hdw1 : destroy_while (max y.e e) ((m :: M0) ++ B) nr = (B, nr + (m :: M0).length) :=
          destroy_while_append (m :: M0) B nr
            (fun z hz => le_trans (hMy z hz) (le_max_left _ _)) hBe
        cases hA : As.getLast? with
        | none =>
          have hAs0 : As = [] := List.getLast?_eq_none_iff.mp hA
          subst hAs0
          simp only [Option.getD_some, List.tail_cons]
          rw [hdw0]
          dsimp only
          refine ⟨?_, ?_, ?_, ?_, ?_⟩
          · apply coalesce_canonical (by simp) List.chain'_nil
              (show s ≤ max y.e e by exact le_trans hse (le_max_right _ _))
              hwfB hchB (by simp) hrB
          · constructor
            · intro h; exact absurd h zero_ne_negENOMEM
            · rintro ⟨_, hcon⟩; exact absurd hcon hnnaM
          · intro h; exact absurd h zero_ne_negENOMEM
          · exact Or.inr (by simp)
          · intro _
            have := coalesce_nr_ge [] (Range.mk s (max y.e e)) B (nr + (M0.length : Int))
            omega
        | some x =>
          dsimp only
          have hAsx : As.dropLast ++ [x] = As := List.dropLast_append_getLast? x hA
          have hxAs : x ∈ As := List.mem_of_mem_getLast? hA
          have hxwf : x.s ≤ x.e := hwfAs x hxAs
          have hxs : x.s ≤ s := hAs x hxAs
          have hchA' : List.Chain' rangeGap As.dropLast := by
            have h2 : List.Chain' rangeGap (As.dropLast ++ [x]) := by rwa [hAsx]
            exact h2.left_of_append
          have hwfA' : ∀ z ∈ As.dropLast, z.s ≤ z.e := by
            intro z hz
            exact hwfAs z (by rw [← hAsx]; exact List.mem_append_left _ hz)
          have hbA' : ∀ p ∈ As.dropLast.getLast?, rangeGap p x := by
            have h2 : List.Chain' rangeGap (As.dropLast ++ [x]) := by rwa [hAsx]
            have h3 := (List.chain'_append.1 h2).2.2
            intro p hp
            exact h3 p hp x rfl
          by_cases hcond : x.e < s ∧ x.e + 1 ≠ s
          · rw [if_pos hcond]
            simp only [Option.getD_some, List.tail_cons]
            rw [hdw0]
            dsimp only
            have hgapxs : x.e + 1 < s := by omega
            refine ⟨?_, ?_, ?_, ?_, ?_⟩
            · apply coalesce_canonical hwfAs hchAs
                (show s ≤ max y.e e by exact le_trans hse (le_max_right _ _))
                hwfB hchB ?_ hrB
              intro p hp
              rw [hA] at hp
              have hp' : x = p := by simpa using hp
              subst hp'
              exact hgapxs
            · constructor
              · intro h; exact absurd h zero_ne_negENOMEM
              · rintro ⟨_, hcon⟩; exact absurd hcon hnnaM
            · intro h; exact absurd h zero_ne_negENOMEM
            · exact Or.inr (by simp)
            · intro _
              have := coalesce_nr_ge As (Range.mk s (max y.e e)) B (nr + (M0.length : Int))
              omega
          · rw [if_neg hcond]
            simp only [Option.getD_some]
            rw [hdw1]
            dsimp only
            refine ⟨?_, ?_, ?_, ?_, ?_⟩
            · apply coalesce_canonical (w := Range.mk x.s (max y.e e)) hwfA' hchA'
                (le_trans (le_trans hxs hse) (le_max_right _ _))
                hwfB hchB hbA' hrB
            · constructor
              · intro h; exact absurd h zero_ne_negENOMEM
              · rintro ⟨_, hcon⟩; exact absurd hcon hnnaM
            · intro h; exact absurd h zero_ne_negENOMEM
            · exact Or.inr (by simp)
            · intro _
              have := coalesce_nr_ge As.dropLast (Range.mk x.s (max y.e e)) B
                (nr + ((m :: M0).length : Int))
              simp only [List.length_cons] at this ⊢
              omega

/-- `add_core_spec` transported to an arbitrary canonical rangeset. -/
theorem rangeset_add_range_spec (r : Rangeset) (s e : Nat)
    (hc : canonical r.range_list) (hse : s ≤ e) :
    canonical (rangeset_add_range r s e).2.range_list ∧
    ((rangeset_add_range r s e).1 = -ENOMEM ↔
      r.nr_ranges = 0 ∧ needsAlloc r.range_list s e) ∧
    ((rangeset_add_range r s e).1 = -ENOMEM → (rangeset_add_range r s e).2 = r) ∧
    ((rangeset_add_range r s e).1 = -ENOMEM ∨ (rangeset_add_range r s e).1 = 0) ∧
    (¬ needsAlloc r.range_list s e →
      r.nr_ranges ≤ (rangeset_add_range r s e).2.nr_ranges) := by
  obtain ⟨l, nr, nm, fl⟩ := r
  simp only at hc ⊢
  have h1 : (find_split s l).1 ++ (find_split s l).2 = l := find_split_append s l
  have h2 : (find_split e (find_split s l).2).1 ++ (find_split e (find_split s l).2).2 =
      (find_split s l).2 := find_split_append e _
  have hl : l = (find_split s l).1 ++
      ((find_split e (find_split s l).2).1 ++ (find_split e (find_split s l).2).2) := by
    rw [h2, h1]
  have hM1 : ∀ z ∈ (find_split e (find_split s l).2).1, s < z.s := by
    intro z hz
    have hz' : z ∈ (find_split s l).2 := by
      rw [← h2]; exact List.mem_append_left _ hz
    exact find_split_right_all s hc z hz'
  have hBeq : (find_split e l).2 = (find_split e (find_split s l).2).2 := by
    rw [find_split_mono s e l hse]
  have hB : ∀ z ∈ (find_split e (find_split s l).2).2, e < z.s := by
    intro z hz
    exact find_split_right_all e hc z (by rw [hBeq]; exact hz)
  have hcore := add_core_spec nr nm fl (find_split s l).1
    (find_split e (find_split s l).2).1 (find_split e (find_split s l).2).2 s e hse
    (by rw [← hl]; exact hc) (find_split_left_le s l) hM1
    (find_split_left_le e (find_split s l).2) hB
  rw [← hl] at hcore
  exact hcore

/-! ### Behaviour of rangeset_remove_range on a canonical list -/

theorem remove_core_spec (nr : Int) (nm : String) (fl : Nat)
    (As M B : List Range) (s e : Nat)
    (hse : s ≤ e) (hwrap : e + 1 < 2 ^ 64)
    (hc : canonical (As ++ (M ++ B)))
    (hAs : ∀ a ∈ As, a.s ≤ s)
    (hM1 : ∀ z ∈ M, s < z.s) (hM2 : ∀ z ∈ M, z.s ≤ e)
    (hB : ∀ z ∈ B, e < z.s) :
    canonical (rangeset_remove_range ⟨As ++ (M ++ B), nr, nm, fl⟩ s e).2.range_list ∧
    ((rangeset_remove_range ⟨As ++ (M ++ B), nr, nm, fl⟩ s e).1 = -ENOMEM →
      (rangeset_remove_range ⟨As ++ (M ++ B), nr, nm, fl⟩ s e).2 =
        ⟨As ++ (M ++ B), nr, nm, fl⟩) ∧
    ((rangeset_remove_range ⟨As ++ (M ++ B), nr, nm, fl⟩ s e).1 = -ENOMEM ∨
      (rangeset_remove_range ⟨As ++ (M ++ B), nr, nm, fl⟩ s e).1 = 0) := by
  have hwf : ∀ x ∈ As ++ (M ++ B), x.s ≤ x.e := hc.1
  have hch : List.Chain' rangeGap (As ++ (M ++ B)) := hc.2
  have hoptB : ∀ y ∈ B.head?, y ∈ B := by cases B <;> simp
  have hoptMB : ∀ y ∈ (M ++ B).head?, y ∈ M ++ B := by cases M <;> cases B <;> simp
  have hsB : ∀ y ∈ (M ++ B).head?, s < y.s := by
    intro y hy
    rcases List.mem_append.1 (hoptMB y hy) with h | h
    · exact hM1 y h
    · exact lt_of_le_of_lt hse (hB y h)
  have hs : find_split s (As ++ (M ++ B)) = (As, M ++ B) :=
    find_split_eq_of s As (M ++ B) hAs hsB
  have heP : ∀ p ∈ As ++ M, p.s ≤ e := by
    intro p hp
    rcases List.mem_append.1 hp with h | h
    · exact le_trans (hAs p h) hse
    · exact hM2 p h
  have heB' : ∀ y ∈ B.head?, e < y.s := fun y hy => hB y (hoptB y hy)
  have he : find_split e (As ++ (M ++ B)) = (As ++ M, B) := by
    rw [← List.append_assoc]
    exact find_split_eq_of e (As ++ M) B heP heB'
  have hchAs : List.Chain' rangeGap As := hch.left_of_append
  have hchMB : List.Chain' rangeGap (M ++ B) := hch.right_of_append
  have hchM : List.Chain' rangeGap M := hchMB.left_of_append
  have hchB : List.Chain' rangeGap B := hchMB.right_of_append
  have hbound1 : ∀ p ∈ As.getLast?, ∀ y ∈ (M ++ B).head?, rangeGap p y :=
    (List.chain'_append.1 hch).2.2
  have hbound2 : ∀ p ∈ (As ++ M).getLast?, ∀ y ∈ B.head?, rangeGap p y := by
    have h2 : List.Chain' rangeGap ((As ++ M) ++ B) := by rwa [List.append_assoc]
    exact (List.chain'_append.1 h2).2.2
  have hwfAs : ∀ x ∈ As, x.s ≤ x.e := fun x hx => hwf x (List.mem_append_left _ hx)
  have hwfM : ∀ x ∈ M, x.s ≤ x.e :=
    fun x hx => hwf x (List.mem_append_right _ (List.mem_append_left _ hx))
  have hwfB : ∀ x ∈ B, x.s ≤ x.e :=
    fun x hx => hwf x (List.mem_append_right _ (List.mem_append_right _ hx))
  simp only [rangeset_remove_range]
  rw [Nat.mod_eq_of_lt hwrap, hs, he]
  by_cases hM : M = []
  · subst hM
    rw [if_pos (by simp)]
    simp only [List.nil_append] at hsB hbound1 hchMB hoptMB ⊢
    cases hA : As.getLast? with
    | none =>
      refine ⟨⟨hwf, hch⟩, fun _ => rfl, Or.inr rfl⟩
    | some x =>
      dsimp only
      have hAsx : As.dropLast ++ [x] = As := List.dropLast_append_getLast? x hA
      have hxAs : x ∈ As := List.mem_of_mem_getLast? hA
      have hxwf : x.s ≤ x.e := hwfAs x hxAs
      have hxs : x.s ≤ s := hAs x hxAs
      have hchA' : List.Chain' rangeGap As.dropLast := by
        have h2 : List.Chain' rangeGap (As.dropLast ++ [x]) := by rwa [hAsx]
        exact h2.left_of_append
      have hwfA' : ∀ z ∈ As.dropLast, z.s ≤ z.e := by
        intro z hz
        exact hwfAs z (by rw [← hAsx]; exact List.mem_append_left _ hz)
      have hbA' : ∀ p ∈ As.dropLast.getLast?, rangeGap p x := by
        have h2 : List.Chain' rangeGap (As.dropLast ++ [x]) := by rwa [hAsx]
        have h3 := (List.chain'_append.1 h2).2.2
        intro p hp
        exact h3 p hp x rfl
      have hxB : ∀ b ∈ B.head?, x.e + 1 < b.s := fun b hb => hbound1 x hA b hb
      by_cases hc1 : x.e < s
      · rw [if_pos hc1]
        refine ⟨⟨hwf, hch⟩, fun _ => rfl, Or.inr rfl⟩
      · rw [if_neg hc1]
        by_cases hc2 : x.s < s ∧ e < x.e
        · rw [if_pos hc2]
          by_cases hnr : nr = 0
          · rw [if_pos hnr]
            refine ⟨⟨hwf, hch⟩, fun _ => rfl, Or.inl rfl⟩
          · rw [if_neg hnr]
            refine ⟨?_, fun h => absurd h zero_ne_negENOMEM, Or.inr rfl⟩
            constructor
            · intro z hz
              rcases List.mem_append.1 hz with h | h
              · exact hwfA' z h
              · rcases List.mem_cons.1 h with h' | h'
                · subst h'; simp only; omega
                · rcases List.mem_cons.1 h' with h'' | h''
                  · subst h''; simp only; omega
                  · exact hwfB z h''
            · refine List.chain'_append.2 ⟨hchA', ?_, ?_⟩
              · refine List.chain'_cons.2 ⟨by simp only [rangeGap]; omega, ?_⟩
                refine List.chain'_cons'.2 ⟨?_, hchB⟩
                intro b hb
                have := hxB b hb
                simp only [rangeGap] at *
                omega
              · intro p hp q hq
                simp at hq
                subst hq
                exact hbA' p hp
        · rw [if_neg hc2]
          by_cases hc3 : x.s = s ∧ x.e ≤ e
          · rw [if_pos hc3]
            refine ⟨?_, fun h => absurd h zero_ne_negENOMEM, Or.inr rfl⟩
            constructor
            · intro z hz
              rcases List.mem_append.1 hz with h | h
              · exact hwfA' z h
              · exact hwfB z h
            · refine List.chain'_append.2 ⟨hchA', hchB, ?_⟩
              intro p hp q hq
              have h1 := hbA' p hp
              have h2 := hxB q (by cases B with
                | nil => simp at hq
                | cons b t => simpa using hq)
              · simp only [rangeGap] at *
                omega
          · rw [if_neg hc3]
            by_cases hc4 : x.s = s
            · rw [if_pos hc4]
              refine ⟨?_, fun h => absurd h zero_ne_negENOMEM, Or.inr rfl⟩
              have hxe : e < x.e := by
                rcases Decidable.not_and_iff_or_not.1 hc3 with h | h
                · exact absurd hc4 h
                · omega
              constructor
              · intro z hz
                rcases List.mem_append.1 hz with h | h
                · exact hwfA' z h
                · rcases List.mem_cons.1 h with h' | h'
                  · subst h'; simp only; omega
                  · exact hwfB z h'
              · refine List.chain'_append.2 ⟨hchA', ?_, ?_⟩
                · refine List.chain'_cons'.2 ⟨?_, hchB⟩
                  intro b hb
                  have := hxB b hb
                  simp only [rangeGap] at *
                  omega
                · intro p hp q hq
                  simp at hq
                  subst hq
                  have := hbA' p hp
                  simp only [rangeGap] at *
                  omega
            · rw [if_neg hc4]
              by_cases hc5 : x.e ≤ e
              · rw [if_pos hc5]
                refine ⟨?_, fun h => absurd h zero_ne_negENOMEM, Or.inr rfl⟩
                have hxs' : x.s < s := lt_of_le_of_ne hxs hc4
                constructor
                · intro z hz
                  rcases List.mem_append.1 hz with h | h
                  · exact hwfA' z h
                  · rcases List.mem_cons.1 h with h' | h'
                    · subst h'; simp only; omega
                    · exact hwfB z h'
                · refine List.chain'_append.2 ⟨hchA', ?_, ?_⟩
                  · refine List.chain'_cons'.2 ⟨?_, hchB⟩
                    intro b hb
                    have h1 := heB' b hb
                    simp only [rangeGap]
                    omega
                  · intro p hp q hq
                    simp at hq
                    subst hq
                    exact hbA' p hp
              · rw [if_neg hc5]
                refine ⟨⟨hwf, hch⟩, fun _ => rfl, Or.inr rfl⟩
  · rw [if_neg (by simpa using hM)]
    rw [List.drop_left As M, List.getLast?_append_of_ne_nil As hM]
    cases hy : M.getLast? with
    | none => exact absurd (List.getLast?_eq_none_iff.mp hy) hM
    | some y =>
      simp only [Option.getD_some]
      have hymem : y ∈ M := List.mem_of_mem_getLast? hy
      have hywf : y.s ≤ y.e := hwfM y hymem
      have hyAsM : (As ++ M).getLast? = some y := by
        rw [List.getLast?_append_of_ne_nil As hM, hy]
      have hyB : ∀ b ∈ B.head?, y.e + 1 < b.s := fun b hb => hbound2 y hyAsM b hb
      cases hA : As.getLast? with
      | none =>
        have hAs0 : As = [] := List.getLast?_eq_none_iff.mp hA
        subst hAs0
        dsimp only
        by_cases hye : y.e < e + 1
        · rw [if_pos hye]
          refine ⟨⟨hwfB, hchB⟩, fun h => absurd h zero_ne_negENOMEM, Or.inr rfl⟩
        · rw [if_neg hye]
          refine ⟨?_, fun h => absurd h zero_ne_negENOMEM, Or.inr rfl⟩
          constructor
          · intro z hz
            rcases List.mem_cons.1 hz with h | h
            · subst h; simp only; omega
            · exact hwfB z h
          · refine List.chain'_cons'.2 ⟨?_, hchB⟩
            intro b hb
            have := hyB b hb
            simp only [rangeGap] at *
            omega
      | some x =>
        dsimp only
        have hAsx : As.dropLast ++ [x] = As := List.dropLast_append_getLast? x hA
        have hxAs : x ∈ As := List.mem_of_mem_getLast? hA
        have hxwf : x.s ≤ x.e := hwfAs x hxAs
        have hxs : x.s ≤ s := hAs x hxAs
        have hchA' : List.Chain' rangeGap As.dropLast := by
          have h2 : List.Chain' rangeGap (As.dropLast ++ [x]) := by rwa [hAsx]
          exact h2.left_of_append
        have hwfA' : ∀ z ∈ As.dropLast, z.s ≤ z.e := by
          intro z hz
          exact hwfAs z (by rw [← hAsx]; exact List.mem_append_left _ hz)
        have hbA' : ∀ p ∈ As.dropLast.getLast?, rangeGap p x := by
          have h2 : List.Chain' rangeGap (As.dropLast ++ [x]) := by rwa [hAsx]
          have h3 := (List.chain'_append.1 h2).2.2
          intro p hp
          exact h3 p hp x rfl
        by_cases hxs2 : x.s < s
        · rw [if_pos hxs2]
          have hs1 : 1 ≤ s := by omega
          have hpre_wf : ∀ z ∈ As.dropLast ++ [Range.mk x.s (s - 1)], z.s ≤ z.e := by
            intro z hz
            rcases List.mem_append.1 hz with h | h
            · exact hwfA' z h
            · simp at h; subst h; simp only; omega
          have hpre_ch : List.Chain' rangeGap (As.dropLast ++ [Range.mk x.s (s - 1)]) := by
            refine List.chain'_append.2 ⟨hchA', List.chain'_singleton _, ?_⟩
            intro p hp q hq
            simp at hq
            subst hq
            exact hbA' p hp
          have hpre_last : (As.dropLast ++ [Range.mk x.s (s - 1)]).getLast? =
              some (Range.mk x.s (s - 1)) := List.getLast?_concat _
          by_cases hye : y.e < e + 1
          · rw [if_pos hye]
            refine ⟨?_, fun h => absurd h zero_ne_negENOMEM, Or.inr rfl⟩
            refine ⟨?_, ?_⟩
            · intro z hz
              rcases List.mem_append.1 hz with h | h
              · exact hpre_wf z h
              · exact hwfB z h
            · refine List.chain'_append.2 ⟨hpre_ch, hchB, ?_⟩
              intro p hp q hq
              rw [hpre_last] at hp
              have hp' : Range.mk x.s (s - 1) = p := by simpa using hp
              subst hp'
              have := heB' q hq
              simp only [rangeGap]
              omega
          · rw [if_neg hye]
            refine ⟨?_, fun h => absurd h zero_ne_negENOMEM, Or.inr rfl⟩
            refine ⟨?_, ?_⟩
            · intro z hz
              rcases List.mem_append.1 hz with h | h
              · exact hpre_wf z h
              · rcases List.mem_cons.1 h with h' | h'
                · subst h'; simp only; omega
                · exact hwfB z h'
            · refine List.chain'_append.2 ⟨hpre_ch, ?_, ?_⟩
              · refine List.chain'_cons'.2 ⟨?_, hchB⟩
                intro b hb
                have := hyB b hb
                simp only [rangeGap] at *
                omega
              · intro p hp q hq
                rw [hpre_last] at hp
                have hp' : Range.mk x.s (s - 1) = p := by simpa using hp
                subst hp'
                simp at hq
                subst hq
                simp only [rangeGap]
                omega
        · rw [if_neg hxs2]
          have hbA'next : ∀ p ∈ As.dropLast.getLast?, p.e + 1 < e + 1 := by
            intro p hp
            have := hbA' p hp
            simp only [rangeGap] at *
            omega
          by_cases hye : y.e < e + 1
          · rw [if_pos hye]
            refine ⟨?_, fun h => absurd h zero_ne_negENOMEM, Or.inr rfl⟩
            refine ⟨?_, ?_⟩
            · intro z hz
              rcases List.mem_append.1 hz with h | h
              · exact hwfA' z h
              · exact hwfB z h
            · refine List.chain'_append.2 ⟨hchA', hchB, ?_⟩
              intro p hp q hq
              have h1 := hbA' p hp
              have h2 := heB' q hq
              simp only [rangeGap] at *
              omega
          · rw [if_neg hye]
            refine ⟨?_, fun h => absurd h zero_ne_negENOMEM, Or.inr rfl⟩
            refine ⟨?_, ?_⟩
            · intro z hz
              rcases List.mem_append.1 hz with h | h
              · exact hwfA' z h
              · rcases List.mem_cons.1 h with h' | h'
                · subst h'; simp only; omega
                · exact hwfB z h'
            · refine List.chain'_append.2 ⟨hchA', ?_, ?_⟩
              · refine List.chain'_cons'.2 ⟨?_, hchB⟩
                intro b hb
                have := hyB b hb
                simp only [rangeGap] at *
                omega
              · intro p hp q hq
                simp at hq
                subst hq
                exact hbA'next p hp

/-- `remove_core_spec` transported to an arbitrary canonical rangeset. -/
theorem rangeset_remove_range_spec (r : Rangeset) (s e : Nat)
    (hc : canonical r.range_list) (hse : s ≤ e) (hwrap : e + 1 < 2 ^ 64) :
    canonical (rangeset_remove_range r s e).2.range_list ∧
    ((rangeset_remove_range r s e).1 = -ENOMEM → (rangeset_remove_range r s e).2 = r) ∧
    ((rangeset_remove_range r s e).1 = -ENOMEM ∨ (rangeset_remove_range r s e).1 = 0) := by
  obtain ⟨l, nr, nm, fl⟩ := r
  simp only at hc ⊢
  have h1 : (find_split s l).1 ++ (find_split s l).2 = l := find_split_append s l
  have h2 : (find_split e (find_split s l).2).1 ++ (find_split e (find_split s l).2).2 =
      (find_split s l).2 := find_split_append e _
  have hl : l = (find_split s l).1 ++
      ((find_split e (find_split s l).2).1 ++ (find_split e (find_split s l).2).2) := by
    rw [h2, h1]
  have hM1 : ∀ z ∈ (find_split e (find_split s l).2).1, s < z.s := by
    intro z hz
    have hz' : z ∈ (find_split s l).2 := by
      rw [← h2]; exact List.mem_append_left _ hz
    exact find_split_right_all s hc z hz'
  have hBeq : (find_split e l).2 = (find_split e (find_split s l).2).2 := by
    rw [find_split_mono s e l hse]
  have hB : ∀ z ∈ (find_split e (find_split s l).2).2, e < z.s := by
    intro z hz
    exact find_split_right_all e hc z (by rw [hBeq]; exact hz)
  have hcore := remove_core_spec nr nm fl (find_split s l).1
    (find_split e (find_split s l).2).1 (find_split e (find_split s l).2).2 s e hse hwrap
    (by rw [← hl]; exact hc) (find_split_left_le s l) hM1
    (find_split_left_le e (find_split s l).2) hB
  rw [← hl] at hcore
  exact hcore

/-! ### add followed by remove of a disjoint interval restores the set -/

/-- Computation of `rangeset_remove_range` on a list of the shape
`pre ++ n :: Q` where every range of `pre` starts at or below `s`,
`n` starts at or below `s`, and every range of `Q` starts above `e`:
both scans stop at `n`, so the call lands in the `x == y` arm with
`x = n`, and the result is given by the source's five-way branch. -/
theorem remove_point_case (nr : Int) (nm : String) (fl : Nat)
    (pre Q : List Range) (n : Range) (s e : Nat)
    (hse : s ≤ e)
    (hpre : ∀ p ∈ pre, p.s ≤ s)
    (hns : n.s ≤ s)
    (hQ : ∀ g ∈ Q.head?, e < g.s) :
    rangeset_remove_range ⟨pre ++ n :: Q, nr, nm, fl⟩ s e =
      if n.e < s then (0, ⟨pre ++ n :: Q, nr, nm, fl⟩)
      else if n.s < s ∧ e < n.e then
        if nr = 0 then (-ENOMEM, ⟨pre ++ n :: Q, nr, nm, fl⟩)
        else (0, ⟨pre ++ Range.mk n.s (s - 1) :: Range.mk (e + 1) n.e :: Q,
          nr - 1, nm, fl⟩)
      else if n.s = s ∧ n.e ≤ e then (0, ⟨pre ++ Q, nr + 1, nm, fl⟩)
      else if n.s = s then (0, ⟨pre ++ Range.mk (e + 1) n.e :: Q, nr, nm, fl⟩)
      else if n.e ≤ e then (0, ⟨pre ++ Range.mk n.s (s - 1) :: Q, nr, nm, fl⟩)
      else (0, ⟨pre ++ n :: Q, nr, nm, fl⟩) := by
  have hsplit : ∀ k, s ≤ k → (∀ g ∈ Q.head?, k < g.s) →
      find_split k (pre ++ n :: Q) = (pre ++ [n], Q) := by
    intro k hk hQk
    have := find_split_eq_of k (pre ++ [n]) Q
      (by intro p hp
          rcases List.mem_append.1 hp with h | h
          · exact le_trans (hpre p h) hk
          · simp at h; subst h; exact le_trans hns hk)
      hQk
    simpa using this
  have hp1 : find_split s (pre ++ n :: Q) = (pre ++ [n], Q) :=
    hsplit s le_rfl (fun g hg => lt_of_le_of_lt hse (hQ g hg))
  have hp2 : find_split e (pre ++ n :: Q) = (pre ++ [n], Q) :=
    hsplit e hse hQ
  simp only [rangeset_remove_range]
  rw [hp1, hp2, if_pos rfl, List.getLast?_concat]
  dsimp only
  rw [List.dropLast_concat]

theorem add_remove_restore_core (nr : Int) (nm : String) (fl : Nat)
    (As B : List Range) (s e : Nat) (hse : s ≤ e)
    (hc : canonical (As ++ B))
    (hAs : ∀ a ∈ As, a.s ≤ s)
    (hdisjAs : ∀ a ∈ As, a.e < s)
    (hB : ∀ z ∈ B, e < z.s) :
    ∀ r1 r2, rangeset_add_range ⟨As ++ B, nr, nm, fl⟩ s e = (0, r1) →
      rangeset_remove_range r1 s e = (0, r2) → r2 = ⟨As ++ B, nr, nm, fl⟩ := by
  intro r1 r2 h1 h2
  have hwf : ∀ x ∈ As ++ B, x.s ≤ x.e := hc.1
  have hch : List.Chain' rangeGap (As ++ B) := hc.2
  have hoptB : ∀ y ∈ B.head?, y ∈ B := by cases B <;> simp
  have hwfAs : ∀ x ∈ As, x.s ≤ x.e := fun x hx => hwf x (List.mem_append_left _ hx)
  have hwfB : ∀ x ∈ B, x.s ≤ x.e := fun x hx => hwf x (List.mem_append_right _ hx)
  have hchB : List.Chain' rangeGap B := hch.right_of_append
  have hsB : ∀ y ∈ (B : List Range).head?, s < y.s :=
    fun y hy => lt_of_le_of_lt hse (hB y (hoptB y hy))
  have heB : ∀ y ∈ (B : List Range).head?, e < y.s :=
    fun y hy => hB y (hoptB y hy)
  have hs : find_split s (As ++ B) = (As, B) := find_split_eq_of s As B hAs hsB
  have he : find_split e (As ++ B) = (As, B) :=
    find_split_eq_of e As B (fun p hp => le_trans (hAs p hp) hse) heB
  simp only [rangeset_add_range] at h1
  rw [hs, he] at h1
  rw [if_pos rfl] at h1
  cases hA : As.getLast? with
  | none =>
    have hAs0 : As = [] := List.getLast?_eq_none_iff.mp hA
    subst hAs0
    rw [hA] at h1
    dsimp only at h1
    by_cases hnr : nr = 0
    · rw [if_pos hnr] at h1
      rw [Prod.mk.injEq] at h1
      exact absurd h1.1 (by decide)
    · rw [if_neg hnr] at h1
      cases hBc : B with
      | nil =>
        subst hBc
        simp only [coalesce, List.nil_append] at h1 ⊢
        rw [Prod.mk.injEq] at h1
        obtain ⟨-, h1b⟩ := h1
        subst h1b
        rw [show ([Range.mk s e] : List Range) = [] ++ Range.mk s e :: [] by simp] at h2
        rw [remove_point_case (nr - 1) nm fl [] [] (Range.mk s e) s e hse
            (by simp) (by simp) (by simp)] at h2
        rw [if_neg (by dsimp only; omega), if_neg (by dsimp only; omega),
          if_pos (by dsimp only; omega)] at h2
        rw [Prod.mk.injEq] at h2
        obtain ⟨-, h2b⟩ := h2
        subst h2b
        rw [show nr - 1 + 1 = nr by omega]
        rfl
      | cons b t =>
        subst hBc
        have hbe : e < b.s := hB b (by simp)
        have hbwf : b.s ≤ b.e := hwfB b (by simp)
        have htg : ∀ g ∈ t.head?, b.e + 1 < g.s := (List.chain'_cons'.1 hchB).1
        have htg' : ∀ g ∈ t.head?, e < g.s := by
          intro g hg; have := htg g hg; omega
        simp only [coalesce, List.nil_append] at h1 ⊢
        by_cases hadj : e + 1 = b.s
        · rw [if_pos (by simpa using hadj)] at h1
          rw [Prod.mk.injEq] at h1
          obtain ⟨-, h1b⟩ := h1
          subst h1b
          rw [show (Range.mk s b.e :: t : List Range) = [] ++ Range.mk s b.e :: t
              by simp] at h2
          rw [remove_point_case (nr - 1 + 1) nm fl [] t (Range.mk s b.e) s e hse
              (by simp) (by simp) htg'] at h2
          rw [if_neg (by dsimp only; omega), if_neg (by dsimp only; omega),
            if_neg (by dsimp only; omega), if_pos (by dsimp only)] at h2
          rw [Prod.mk.injEq] at h2
          obtain ⟨-, h2b⟩ := h2
          subst h2b
          have hbeq : Range.mk (e + 1) b.e = b := by rw [hadj]
          rw [show nr - 1 + 1 = nr by omega, hbeq]
          rfl
        · rw [if_neg (by simpa using hadj)] at h1
          rw [Prod.mk.injEq] at h1
          obtain ⟨-, h1b⟩ := h1
          subst h1b
          rw [show (Range.mk s e :: b :: t : List Range) = [] ++ Range.mk s e :: b :: t
              by simp] at h2
          rw [remove_point_case (nr - 1) nm fl [] (b :: t) (Range.mk s e) s e hse
              (by simp) (by simp)
              (by intro g hg; simp at hg; subst hg; exact hbe)] at h2
          rw [if_neg (by dsimp only; omega), if_neg (by dsimp only; omega),
            if_pos (by dsimp only; omega)] at h2
          rw [Prod.mk.injEq] at h2
          obtain ⟨-, h2b⟩ := h2
          subst h2b
          rw [show nr - 1 + 1 = nr by omega]
          rfl
  | some x =>
    rw [hA] at h1
    dsimp only at h1
    have hAsx : As.dropLast ++ [x] = As := List.dropLast_append_getLast? x hA
    have hxAs : x ∈ As := List.mem_of_mem_getLast? hA
    have hxwf : x.s ≤ x.e := hwfAs x hxAs
    have hxs : x.s ≤ s := hAs x hxAs
    have hxe : x.e < s := hdisjAs x hxAs
    have hA'le : ∀ a ∈ As.dropLast, a.s ≤ s := by
      intro a ha
      exact hAs a (by rw [← hAsx]; exact List.mem_append_left _ ha)
    by_cases hadjL : x.e + 1 = s
    · -- left-adjacent: the code extends x in place, no allocation
      have hxeq : Range.mk x.s (s - 1) = x := by
        rw [show s - 1 = x.e by omega]
      rw [if_neg (by omega), if_pos (by omega)] at h1
      cases hBc : B with
      | nil =>
        subst hBc
        simp only [coalesce] at h1
        rw [Prod.mk.injEq] at h1
        obtain ⟨-, h1b⟩ := h1
        subst h1b
        rw [remove_point_case nr nm fl As.dropLast [] (Range.mk x.s e) s e hse
            hA'le (by dsimp only; omega) (by simp)] at h2
        rw [if_neg (by dsimp only; omega), if_neg (by dsimp only; omega),
          if_neg (by dsimp only; omega), if_neg (by dsimp only; omega),
          if_pos (by dsimp only; omega)] at h2
        rw [Prod.mk.injEq] at h2
        obtain ⟨-, h2b⟩ := h2
        subst h2b
        rw [hxeq, show (As.dropLast ++ x :: [] : List Range) = As.dropLast ++ [x]
          from rfl, hAsx, List.append_nil]
      | cons b t =>
        subst hBc
        have hbe : e < b.s := hB b (by simp)
        have hbwf : b.s ≤ b.e := hwfB b (by simp)
        have htg : ∀ g ∈ t.head?, b.e + 1 < g.s := (List.chain'_cons'.1 hchB).1
        have htg' : ∀ g ∈ t.head?, e < g.s := by
          intro g hg; have := htg g hg; omega
        simp only [coalesce] at h1
        by_cases hadj : e + 1 = b.s
        · rw [if_pos (by simpa using hadj)] at h1
          rw [Prod.mk.injEq] at h1
          obtain ⟨-, h1b⟩ := h1
          subst h1b
          rw [remove_point_case (nr + 1) nm fl As.dropLast t (Range.mk x.s b.e) s e hse
              hA'le (by dsimp only; omega) htg'] at h2
          rw [if_neg (by dsimp only; omega),
            if_pos (by dsimp only; exact ⟨by omega, by omega⟩)] at h2
          by_cases hnr1 : nr + 1 = 0
          · rw [if_pos hnr1] at h2
            rw [Prod.mk.injEq] at h2
            exact absurd h2.1 (by decide)
          · rw [if_neg hnr1] at h2
            rw [Prod.mk.injEq] at h2
            obtain ⟨-, h2b⟩ := h2
            subst h2b
            have hbeq : Range.mk (e + 1) b.e = b := by rw [hadj]
            rw [show nr + 1 - 1 = nr by omega, hxeq, hbeq,
              show As.dropLast ++ x :: b :: t = (As.dropLast ++ [x]) ++ b :: t by simp,
              hAsx]
        · rw [if_neg (by simpa using hadj)] at h1
          rw [Prod.mk.injEq] at h1
          obtain ⟨-, h1b⟩ := h1
          subst h1b
          rw [remove_point_case nr nm fl As.dropLast (b :: t) (Range.mk x.s e) s e hse
              hA'le (by dsimp only; omega)
              (by intro g hg; simp at hg; subst hg; exact hbe)] at h2
          rw [if_neg (by dsimp only; omega), if_neg (by dsimp only; omega),
            if_neg (by dsimp only; omega), if_neg (by dsimp only; omega),
            if_pos (by dsimp only; omega)] at h2
          rw [Prod.mk.injEq] at h2
          obtain ⟨-, h2b⟩ := h2
          subst h2b
          rw [hxeq,
            show As.dropLast ++ x :: b :: t = (As.dropLast ++ [x]) ++ b :: t by simp,
            hAsx]
    · -- disjoint and non-adjacent: the code allocates [s, e] after x
      rw [if_pos (by constructor <;> omega)] at h1
      by_cases hnr : nr = 0
      · rw [if_pos hnr] at h1
        rw [Prod.mk.injEq] at h1
        exact absurd h1.1 (by decide)
      · rw [if_neg hnr] at h1
        cases hBc : B with
        | nil =>
          subst hBc
          simp only [coalesce] at h1
          rw [Prod.mk.injEq] at h1
          obtain ⟨-, h1b⟩ := h1
          subst h1b
          rw [show (As ++ [Range.mk s e] : List Range) = As ++ Range.mk s e :: []
              from rfl] at h2
          rw [remove_point_case (nr - 1) nm fl As [] (Range.mk s e) s e hse
              hAs (by simp) (by simp)] at h2
          rw [if_neg (by dsimp only; omega), if_neg (by dsimp only; omega),
            if_pos (by dsimp only; omega)] at h2
          rw [Prod.mk.injEq] at h2
          obtain ⟨-, h2b⟩ := h2
          subst h2b
          rw [show nr - 1 + 1 = nr by omega]
        | cons b t =>
          subst hBc
          have hbe : e < b.s := hB b (by simp)
          have hbwf : b.s ≤ b.e := hwfB b (by simp)
          have htg : ∀ g ∈ t.head?, b.e + 1 < g.s := (List.chain'_cons'.1 hchB).1
          have htg' : ∀ g ∈ t.head?, e < g.s := by
            intro g hg; have := htg g hg; omega
          simp only [coalesce] at h1
          by_cases hadj : e + 1 = b.s
          · rw [if_pos (by simpa using hadj)] at h1
            rw [Prod.mk.injEq] at h1
            obtain ⟨-, h1b⟩ := h1
            subst h1b
            rw [remove_point_case (nr - 1 + 1) nm fl As t (Range.mk s b.e) s e hse
                hAs (by simp) htg'] at h2
            rw [if_neg (by dsimp only; omega), if_neg (by dsimp only; omega),
              if_neg (by dsimp only; omega), if_pos (by dsimp only)] at h2
            rw [Prod.mk.injEq] at h2
            obtain ⟨-, h2b⟩ := h2
            subst h2b
            have hbeq : Range.mk (e + 1) b.e = b := by rw [hadj]
            rw [show nr - 1 + 1 = nr by omega, hbeq]
          · rw [if_neg (by simpa using hadj)] at h1
            rw [Prod.mk.injEq] at h1
            obtain ⟨-, h1b⟩ := h1
            subst h1b
            rw [remove_point_case (nr - 1) nm fl As (b :: t) (Range.mk s e) s e hse
                hAs (by simp)
                (by intro g hg; simp at hg; subst hg; exact hbe)] at h2
            rw [if_neg (by dsimp only; omega), if_neg (by dsimp only; omega),
              if_pos (by dsimp only; omega)] at h2
            rw [Prod.mk.injEq] at h2
            obtain ⟨-, h2b⟩ := h2
            subst h2b
            rw [show nr - 1 + 1 = nr by omega]

/-- `add_remove_restore_core` transported to an arbitrary canonical
rangeset: when `[s, e]` overlaps no stored range, the middle segment of
the scan decomposition is empty. -/
theorem rangeset_add_remove_restore (r : Rangeset) (s e : Nat)
    (hc : canonical r.range_list) (hse : s ≤ e)
    (hdisj : ∀ x ∈ r.range_list, e < x.s ∨ x.e < s) :
    ∀ r1 r2, rangeset_add_range r s e = (0, r1) →
      rangeset_remove_range r1 s e = (0, r2) → r2 = r := by
  obtain ⟨l, nr, nm, fl⟩ := r
  simp only at hc hdisj ⊢
  have hl : l = (find_split s l).1 ++ (find_split s l).2 := (find_split_append s l).symm
  have hB : ∀ z ∈ (find_split s l).2, e < z.s := by
    intro z hz
    have hzs : s < z.s := find_split_right_all s hc z hz
    have hzl : z ∈ l := by rw [hl]; exact List.mem_append_right _ hz
    rcases hdisj z hzl with h | h
    · exact h
    · have := hc.1 z hzl; omega
  have hdisjAs : ∀ a ∈ (find_split s l).1, a.e < s := by
    intro a ha
    have hal : a ∈ l := by rw [hl]; exact List.mem_append_left _ ha
    rcases hdisj a hal with h | h
    · have has : a.s ≤ s := find_split_left_le s l a ha
      omega
    · exact h
  have hcore := add_remove_restore_core nr nm fl (find_split s l).1 (find_split s l).2
    s e hse (by rw [← hl]; exact hc) (find_split_left_le s l) hdisjAs hB
  rw [← hl] at hcore
  exact hcore

/-! ## Coprocessor core: context switch (coproc.c, vcoproc_context_switch)

The driver contract (`struct vcoproc_ops`) is not part of this file
set, so its two context-switch hooks are abstract parameters; the
embedding additionally records, in order, which hooks the function
invoked.  `panic()` is modelled as the `fatal` outcome — the function
does not return normally. -/

/-- Outcome of `vcoproc_context_switch`: a normal return code, or the
`panic(...)` call on a failed `ctx_switch_to`. -/
inductive CSResult where
  | ret (code : Int)
  | fatal (code : Int)
deriving Repr, DecidableEq

/-- A driver-contract hook invocation, with its argument. -/
inductive HookCall (V : Type) where
  | switch_from (v : Option V)
  | switch_to (v : Option V)
deriving Repr, DecidableEq

/-- The two context-switch capabilities of `struct vcoproc_ops`. -/
structure CtxOps (V : Type) where
  ctx_switch_from : Option V → Int
  ctx_switch_to : Option V → Int

/-- `vcoproc_context_switch(curr, next)` from coproc.c.  `curr == next`
(including both `NULL`) returns `0` immediately; otherwise
`ctx_switch_from(curr)` runs first and a non-zero result is returned
as-is without running `ctx_switch_to`; a non-zero result of
`ctx_switch_to(next)` panics. -/
def vcoproc_context_switch {V : Type} [DecidableEq V] (ops : CtxOps V)
    (curr next : Option V) : CSResult × List (HookCall V) :=
  if curr = next then (.ret 0, [])
  else
    let r1 := ops.ctx_switch_from curr
    if r1 ≠ 0 then (.ret r1, [.switch_from curr])
    else
      let r2 := ops.ctx_switch_to next
      if r2 ≠ 0 then (.fatal r2, [.switch_from curr, .switch_to next])
      else (.ret r2, [.switch_from curr, .switch_to next])

/-! ## Coprocessor core: attach / detach (coproc.c)

The per-domain state is the instance list plus the `num_instances`
counter.  The driver-contract results for the particular `(d, coproc)`
pair of one call (`vcoproc_is_created`, `vcoproc_init`) and the
scheduler registration result are abstract inputs carried by the
device record; each embedded call also reports the list of vcoprocs
passed to `vcoproc_free` and whether a `BUG_ON` fired. -/

structure DomainVc (V : Type) where
  instances : List V
  num_instances : Nat
deriving Repr, DecidableEq

structure CoprocDev (V : Type) where
  path : String
  vcoproc_is_created : Bool
  vcoproc_init : Except Int V
  sched_vcoproc_init : V → Int

/-- `coproc_attach_to_domain(d, coproc)` from coproc.c.  Returns the
error code, the new domain state, the vcoprocs handed to
`vcoproc_free`, and whether `BUG_ON(num_instances >= num_coprocs)`
fired. -/
def coproc_attach_to_domain {V : Type} (num_coprocs : Nat) (d : DomainVc V)
    (c : Option (CoprocDev V)) : Int × DomainVc V × List V × Bool :=
  match c with
  | none => (-EINVAL, d, [], false)
  | some coproc =>
    if coproc.vcoproc_is_created then (-EEXIST, d, [], false)
    else
      match coproc.vcoproc_init with
      | .error err => (err, d, [], false)
      | .ok v =>
        if coproc.sched_vcoproc_init v ≠ 0 then
          (coproc.sched_vcoproc_init v, d, [v], false)
        else
          (0, ⟨d.instances ++ [v], d.num_instances + 1⟩, [],
            decide (num_coprocs ≤ d.num_instances))

/-- `coproc_find_by_path(path)` from coproc.c: linear scan of the
registry comparing the canonical device path with `strcmp`; `NULL`
path finds nothing. -/
def coproc_find_by_path {V : Type} (coprocs : List (CoprocDev V))
    (path : Option String) : Option (CoprocDev V) :=
  match path with
  | none => none
  | some p => coprocs.find? (fun c => c.path == p)

/-- `coproc_find_and_attach_to_domain(d, path)` from coproc.c:
`-ENODEV` when no registered coproc has the path, otherwise attach. -/
def coproc_find_and_attach_to_domain {V : Type} (coprocs : List (CoprocDev V))
    (num_coprocs : Nat) (d : DomainVc V) (path : Option String) :
    Int × DomainVc V × List V × Bool :=
  match coproc_find_by_path coprocs path with
  | none => (-ENODEV, d, [], false)
  | some c => coproc_attach_to_domain num_coprocs d (some c)

/-- `coproc_detach_from_domain(d, vcoproc)` from coproc.c.
`sched_destroy` is the result of `vcoproc_scheduler_vcoproc_destroy`
(implemented outside this file set).  The last component reports
whether `BUG_ON(!num_instances)` fired. -/
def coproc_detach_from_domain {V : Type} [DecidableEq V] (d : DomainVc V)
    (v : Option V) (sched_destroy : Int) : Int × DomainVc V × List V × Bool :=
  match v with
  | none => (0, d, [], false)
  | some v =>
    if sched_destroy ≠ 0 then
      (if sched_destroy = -EBUSY then -ERESTART else sched_destroy, d, [], false)
    else
      (0, ⟨d.instances.erase v, d.num_instances - 1⟩, [v],
        decide (d.num_instances = 0))

/-! ## Coprocessor core: domain init (coproc.c, vcoproc_domain_init)

`vcoproc_domain_init` first resets the domain state; with no
registered coprocs it returns `0`, except that domain 0 with a
non-empty `dom0_coprocs` boot option gets `-ENODEV`.  With coprocs
registered, domain 0 runs the `vcoproc_dom0_init` attachment walk
(abstracted as `dom0_init`, since it depends on device-tree lookups);
other domains return `0`.  The second component records whether the
attachment walk ran. -/
def vcoproc_domain_init (num_coprocs : Nat) (domain_id : Nat)
    (dom0_coprocs : String) (dom0_init : Int) : Int × Bool :=
  if num_coprocs = 0 then
    if domain_id = 0 ∧ dom0_coprocs ≠ "" then (-ENODEV, false)
    else (0, false)
  else
    if domain_id = 0 then (dom0_init, true)
    else (0, false)

/-! ## Coprocessor core: registry (coproc.c, coproc_register) -/

structure RegCoproc where
  path : String
  has_ops : Bool
  sched_fail : Option Int

structure Registry where
  coprocs : List String
  num_coprocs : Nat
deriving Repr, DecidableEq

/-- The registry-side `coproc_find_by_path` scan, reduced to whether
some registered path compares equal. -/
def coproc_registry_has_path (paths : List String) (p : String) : Bool :=
  paths.any (fun q => q == p)

/-- `coproc_register(coproc)` from coproc.c: `-EINVAL` on a null
coproc or null driver contract, `-EEXIST` on a duplicate canonical
path; otherwise `vcoproc_scheduler_init` runs (abstract result
`sched_fail`, its implementation is outside this file set) and on
success the coproc is appended at the registry tail and the count
incremented. -/
def coproc_register (reg : Registry) (c : Option RegCoproc) : Int × Registry :=
  match c with
  | none => (-EINVAL, reg)
  | some c =>
    if ¬ c.has_ops then (-EINVAL, reg)
    else if coproc_registry_has_path reg.coprocs c.path then (-EEXIST, reg)
    else
      match c.sched_fail with
      | some err => (err, reg)
      | none => (0, ⟨reg.coprocs ++ [c.path], reg.num_coprocs + 1⟩)

/-- A whole sequence of `coproc_register` calls. -/
def runRegs (reg : Registry) (cs : List (Option RegCoproc)) : Registry :=
  cs.foldl (fun reg c => (coproc_register reg c).2) reg

theorem registry_has_path_iff (paths : List String) (p : String) :
    coproc_registry_has_path paths p = true ↔ p ∈ paths := by
  simp only [coproc_registry_has_path, List.any_eq_true, beq_iff_eq]
  constructor
  · rintro ⟨q, hq, rfl⟩; exact hq
  · intro h; exact ⟨p, h, rfl⟩

theorem coproc_register_nodup (reg : Registry) (cs : List (Option RegCoproc))
    (h : reg.coprocs.Nodup) : (runRegs reg cs).coprocs.Nodup := by
  induction cs generalizing reg with
  | nil => exact h
  | cons c t ih =>
    refine ih _ ?_
    match c with
    | none => exact h
    | some c =>
      simp only [coproc_register]
      split
      · exact h
      · split
        · exact h
        · next hfound =>
          match hs : c.sched_fail with
          | some err => exact h
          | none =>
            have hnotin : c.path ∉ reg.coprocs := by
              intro hmem
              exact hfound ((registry_has_path_iff _ _).mpr hmem)
            simp [List.nodup_append, h, hnotin]

/-! ## Coprocessor core: attach/detach sequences and the BUG_ON assertions

For the domain-bound invariant the driver query has to be modelled
truthfully across a whole run.  The registry is a fixed set of `N`
coprocs identified by index; a domain's state is the list of indices
it has attached.  Driver construction and scheduler registration can
fail arbitrarily (oracle inputs on each operation); `detach` is only
ever called on a vcoproc taken from the domain's own instance list, as
its callers in coproc.c do. -/

structure DomState where
  instances : List Nat
  num_instances : Nat
deriving Repr, DecidableEq

/-- Modelled from the spec: the driver contract's
`vcoproc_is_created(d, c)` — §4.5: "query whether this (domain,
coproc) pairing already has state".  The vendor implementation
(`coproc_xxx`) is not part of this file set, so the query is modelled
as: the domain currently holds an instance of `c`. -/
def vcoproc_is_created (st : DomState) (c : Nat) : Bool :=
  st.instances.contains c

inductive DomOp where
  | attach (c : Nat) (initFail : Option Int) (schedFail : Option Int)
  | detach (c : Nat) (destroyFail : Option Int)
deriving Repr, DecidableEq

/-- One attach or detach, following the control flow of
`coproc_attach_to_domain` / `coproc_detach_from_domain`; the boolean
reports whether the `BUG_ON` on the instance counter fired. -/
def domStep (N : Nat) (st : DomState) : DomOp → DomState × Bool
  | .attach c initFail schedFail =>
    if vcoproc_is_created st c then (st, false)
    else
      match initFail with
      | some _ => (st, false)
      | none =>
        match schedFail with
        | some _ => (st, false)
        | none =>
          (⟨st.instances ++ [c], st.num_instances + 1⟩,
            decide (N ≤ st.num_instances))
  | .detach c destroyFail =>
    match destroyFail with
    | some _ => (st, false)
    | none =>
      (⟨st.instances.erase c, st.num_instances - 1⟩,
        decide (st.num_instances = 0))

/-- Call-site discipline: attach receives a registered coproc
(`coproc_find_by_path` result), detach receives a vcoproc taken from
the domain's instance list. -/
def DomOp.valid (N : Nat) (st : DomState) : DomOp → Prop
  | .attach c _ _ => c < N
  | .detach c _ => c ∈ st.instances

instance (N : Nat) (st : DomState) : (op : DomOp) → Decidable (op.valid N st)
  | .attach c _ _ => inferInstanceAs (Decidable (c < N))
  | .detach c _ => inferInstanceAs (Decidable (c ∈ st.instances))

def validTrace (N : Nat) (st : DomState) : List DomOp → Prop
  | [] => True
  | op :: t => op.valid N st ∧ validTrace N (domStep N st op).1 t

instance instDecValidTrace (N : Nat) :
    (st : DomState) → (ops : List DomOp) → Decidable (validTrace N st ops)
  | _, [] => isTrue trivial
  | st, op :: t =>
    haveI := instDecValidTrace N (domStep N st op).1 t
    inferInstanceAs (Decidable (op.valid N st ∧ validTrace N (domStep N st op).1 t))

/-- Run a trace, collecting whether any BUG_ON fired along the way. -/
def domRun (N : Nat) (st : DomState) : List DomOp → DomState × Bool
  | [] => (st, false)
  | op :: t =>
    let p := domStep N st op
    let q := domRun N p.1 t
    (q.1, p.2 || q.2)

def DomInv (N : Nat) (st : DomState) : Prop :=
  st.instances.Nodup ∧ (∀ c ∈ st.instances, c < N) ∧
    st.num_instances = st.instances.length

theorem nodup_bounded_length {l : List Nat} {N : Nat}
    (hnd : l.Nodup) (hlt : ∀ c ∈ l, c < N) : l.length ≤ N := by
  have hsub : l.toFinset ⊆ Finset.range N := by
    intro c hc
    rw [List.mem_toFinset] at hc
    exact Finset.mem_range.mpr (hlt c hc)
  have := Finset.card_le_card hsub
  rwa [List.toFinset_card_of_nodup hnd, Finset.card_range] at this

theorem domStep_inv {N : Nat} {st : DomState} {op : DomOp}
    (hinv : DomInv N st) (hv : op.valid N st) :
    DomInv N (domStep N st op).1 ∧ (domStep N st op).2 = false := by
  obtain ⟨hnd, hlt, hlen⟩ := hinv
  cases op with
  | attach c initFail schedFail =>
    have hcN : c < N := hv
    simp only [domStep]
    by_cases hcr : vcoproc_is_created st c
    · rw [if_pos hcr]
      exact ⟨⟨hnd, hlt, hlen⟩, rfl⟩
    · rw [if_neg hcr]
      match initFail with
      | some _ => exact ⟨⟨hnd, hlt, hlen⟩, rfl⟩
      | none =>
        match schedFail with
        | some _ => exact ⟨⟨hnd, hlt, hlen⟩, rfl⟩
        | none =>
          have hcmem : c ∉ st.instances := by
            simpa [vcoproc_is_created] using hcr
          constructor
          · refine ⟨?_, ?_, ?_⟩
            · simp [List.nodup_append, hnd, hcmem]
            · intro z hz
              rcases List.mem_append.1 hz with h | h
              · exact hlt z h
              · simp at h; subst h; exact hcN
            · simp [hlen]
          · have hlt' : (c :: st.instances).length ≤ N :=
              nodup_bounded_length (by simp [hnd, hcmem])
                (by intro z hz
                    rcases List.mem_cons.1 hz with h | h
                    · subst h; exact hcN
                    · exact hlt z h)
            simp only [List.length_cons] at hlt'
            simp only [decide_eq_false_iff_not]
            omega
  | detach c destroyFail =>
    have hcmem : c ∈ st.instances := hv
    simp only [domStep]
    match destroyFail with
    | some _ => exact ⟨⟨hnd, hlt, hlen⟩, rfl⟩
    | none =>
      constructor
      · refine ⟨hnd.erase c, ?_, ?_⟩
        · intro z hz
          exact hlt z (List.mem_of_mem_erase hz)
        · rw [List.length_erase_of_mem hcmem, hlen]
      · have h1 : 1 ≤ st.instances.length := List.length_pos_of_mem hcmem
        simp only [decide_eq_false_iff_not]
        omega

theorem domRun_no_bug {N : Nat} {st : DomState} {ops : List DomOp}
    (hinv : DomInv N st) (hv : validTrace N st ops) :
    (domRun N st ops).2 = false ∧ DomInv N (domRun N st ops).1 := by
  induction ops generalizing st with
  | nil => exact ⟨rfl, hinv⟩
  | cons op t ih =>
    obtain ⟨hv1, hv2⟩ := hv
    have hstep := domStep_inv hinv hv1
    have hrest := ih hstep.1 hv2
    simp only [domRun, hstep.2, hrest.1, Bool.or_self]
    exact ⟨by simp, hrest.2⟩

theorem validTrace_append_left {N : Nat} {st : DomState} {pre suf : List DomOp}
    (hv : validTrace N st (pre ++ suf)) : validTrace N st pre := by
  induction pre generalizing st with
  | nil => exact trivial
  | cons op t ih =>
    obtain ⟨h1, h2⟩ := hv
    exact ⟨h1, ih h2⟩

/-! ## Claims -/

/-- C1: for every context switch between vcoproc instances `curr` and
`next` on the same coproc: if `curr = next`, `vcoproc_context_switch`
returns 0 invoking neither driver hook; otherwise `ctx_switch_from(curr)`
is invoked first and its failure aborts the switch with that error,
`ctx_switch_to` never being invoked (`curr` stays running);
`ctx_switch_to(next)` is invoked only after `ctx_switch_from`
succeeded, and its failure is fatal — the core panics instead of
returning. -/
theorem C1_vcoproc_context_switch {V : Type} [DecidableEq V] (ops : CtxOps V)
    (curr next : Option V) :
    (curr = next → vcoproc_context_switch ops curr next = (.ret 0, [])) ∧
    (curr ≠ next → ops.ctx_switch_from curr ≠ 0 →
      vcoproc_context_switch ops curr next =
        (.ret (ops.ctx_switch_from curr), [.switch_from curr])) ∧
    (curr ≠ next → ops.ctx_switch_from curr = 0 → ops.ctx_switch_to next ≠ 0 →
      vcoproc_context_switch ops curr next =
        (.fatal (ops.ctx_switch_to next), [.switch_from curr, .switch_to next])) ∧
    (curr ≠ next → ops.ctx_switch_from curr = 0 → ops.ctx_switch_to next = 0 →
      vcoproc_context_switch ops curr next =
        (.ret 0, [.switch_from curr, .switch_to next])) := by
  refine ⟨?_, ?_, ?_, ?_⟩
  · intro h; simp [vcoproc_context_switch, h]
  · intro h hf; simp [vcoproc_context_switch, h, hf]
  · intro h hf ht; simp [vcoproc_context_switch, h, hf, ht]
  · intro h hf ht; simp [vcoproc_context_switch, h, hf, ht]

theorem C1_witness :
    vcoproc_context_switch (V := Nat) ⟨fun _ => 0, fun _ => -3⟩ (some 0) (some 1) =
      (.fatal (-3), [.switch_from (some 0), .switch_to (some 1)]) :=
  (C1_vcoproc_context_switch ⟨fun _ => 0, fun _ => -3⟩ (some 0) (some 1)).2.2.1
    (by decide) rfl (by decide)

/-- C2: `attach(D, p)` fails with `-ENODEV` when no registered coproc
has canonical path `p`; fails with `-EEXIST` when the driver's
`vcoproc_is_created` reports an existing instance for `(D, coproc)`;
and when registering the new vcoproc with the scheduler fails, the
driver's `vcoproc_free` is invoked on it and `D`'s instance list and
count are unchanged (earlier successes undone). -/
theorem C2_coproc_attach_error_handling {V : Type} (coprocs : List (CoprocDev V))
    (N : Nat) (d : DomainVc V) (p : String) :
    ((∀ c ∈ coprocs, c.path ≠ p) →
      coproc_find_and_attach_to_domain coprocs N d (some p) = (-ENODEV, d, [], false)) ∧
    (∀ c, coproc_find_by_path coprocs (some p) = some c →
      c.vcoproc_is_created = true →
      coproc_find_and_attach_to_domain coprocs N d (some p) = (-EEXIST, d, [], false)) ∧
    (∀ c v, coproc_find_by_path coprocs (some p) = some c →
      c.vcoproc_is_created = false → c.vcoproc_init = .ok v →
      c.sched_vcoproc_init v ≠ 0 →
      coproc_find_and_attach_to_domain coprocs N d (some p) =
        (c.sched_vcoproc_init v, d, [v], false)) := by
  refine ⟨?_, ?_, ?_⟩
  · intro h
    have hnone : coproc_find_by_path coprocs (some p) = none := by
      simp only [coproc_find_by_path]
      rw [List.find?_eq_none]
      intro c hc
      simpa using h c hc
    simp [coproc_find_and_attach_to_domain, hnone]
  · intro c hc hcr
    simp [coproc_find_and_attach_to_domain, hc, coproc_attach_to_domain, hcr]
  · intro c v hc hcr hinit hsched
    simp [coproc_find_and_attach_to_domain, hc, coproc_attach_to_domain, hcr,
      hinit, hsched]

theorem C2_witness :
    coproc_find_and_attach_to_domain (V := Nat)
      [⟨"/c0", false, Except.ok 7, fun _ => -16⟩] 1 ⟨[], 0⟩ (some "/c0") =
      (-16, ⟨[], 0⟩, [7], false) :=
  (C2_coproc_attach_error_handling [⟨"/c0", false, Except.ok 7, fun _ => -16⟩]
      1 ⟨[], 0⟩ "/c0").2.2 _ 7 rfl rfl rfl (by decide)

/-- C3: detach asks the scheduler to destroy the vcoproc's state; a
`-EBUSY` result is converted to `-ERESTART` with the domain's list,
count and the vcoproc untouched (nothing freed); on scheduler success
the vcoproc is unlinked, the count decremented and the driver's
`vcoproc_free(D, v)` invoked. -/
theorem C3_coproc_detach_error_handling {V : Type} [DecidableEq V]
    (d : DomainVc V) (v : V) :
    (coproc_detach_from_domain d (some v) (-EBUSY) = (-ERESTART, d, [], false)) ∧
    (coproc_detach_from_domain d (some v) 0 =
      (0, ⟨d.instances.erase v, d.num_instances - 1⟩, [v],
        decide (d.num_instances = 0))) := by
  constructor
  · have h1 : (-EBUSY : Int) ≠ 0 := by decide
    simp [coproc_detach_from_domain, h1]
  · simp [coproc_detach_from_domain]

/-- C4 as stated is false on the code: with no registered coprocs,
`vcoproc_domain_init` returns `-ENODEV` (not 0) for domain 0 when the
`dom0_coprocs` boot option is non-empty. -/
theorem C4_counterexample :
    vcoproc_domain_init 0 0 "/coproc" 0 = (-ENODEV, false) ∧
      (-ENODEV : Int) ≠ 0 := by decide

/-- C4 (amended): for every domain `D`, when no coprocs are
registered, `domain_init(D)` returns 0 without running the dom0
attachment walk — unless `D` is domain 0 and the `dom0_coprocs` boot
option is non-empty, in which case it returns `-ENODEV`, still
without attaching anything. -/
theorem C4_domain_init_no_coprocs (id : Nat) (cfg : String) (d0 : Int) :
    (id ≠ 0 ∨ cfg = "" → vcoproc_domain_init 0 id cfg d0 = (0, false)) ∧
    (id = 0 → cfg ≠ "" → vcoproc_domain_init 0 id cfg d0 = (-ENODEV, false)) := by
  constructor
  · rintro (h | h) <;> simp [vcoproc_domain_init, h]
  · intro h1 h2
    simp [vcoproc_domain_init, h1, h2]

theorem C4_witness :
    vcoproc_domain_init 0 5 "/coproc" 7 = (0, false) :=
  (C4_domain_init_no_coprocs 5 "/coproc" 7).1 (Or.inl (by decide))

/-- C5: `coproc_register` fails with `-EEXIST` on a duplicate
canonical path, `-EINVAL` on a null coproc or null driver contract,
and on success appends the coproc at the registry tail and increments
the count; consequently the paths of a registry built by any sequence
of register calls are pairwise distinct. -/
theorem C5_coproc_register (reg : Registry) (c : RegCoproc)
    (cs : List (Option RegCoproc)) :
    (coproc_register reg none = (-EINVAL, reg)) ∧
    (c.has_ops = false → coproc_register reg (some c) = (-EINVAL, reg)) ∧
    (c.has_ops = true → c.path ∈ reg.coprocs →
      coproc_register reg (some c) = (-EEXIST, reg)) ∧
    (c.has_ops = true → c.path ∉ reg.coprocs → c.sched_fail = none →
      coproc_register reg (some c) =
        (0, ⟨reg.coprocs ++ [c.path], reg.num_coprocs + 1⟩)) ∧
    (runRegs ⟨[], 0⟩ cs).coprocs.Nodup := by
  refine ⟨rfl, ?_, ?_, ?_, coproc_register_nodup _ _ (by simp)⟩
  · intro h; simp [coproc_register, h]
  · intro h hmem
    simp [coproc_register, h, (registry_has_path_iff _ _).mpr hmem]
  · intro h hmem hsf
    have hnf : ¬ coproc_registry_has_path reg.coprocs c.path = true :=
      fun hcon => hmem ((registry_has_path_iff _ _).mp hcon)
    simp [coproc_register, h, hnf, hsf]

theorem C5_witness :
    coproc_register ⟨["/c0"], 1⟩ (some ⟨"/c1", true, none⟩) =
      (0, ⟨["/c0", "/c1"], 2⟩) :=
  (C5_coproc_register ⟨["/c0"], 1⟩ ⟨"/c1", true, none⟩ []).2.2.2.1 rfl (by decide) rfl

/-- C6 as stated is false on the code: an interval that is adjacent to
an existing range only on the right ("merges into" it) still goes
through `alloc_range` — the code allocates a fresh node and frees it
while coalescing — so with zero headroom the add fails `-ENOMEM`
instead of succeeding without allocation.  Here: `{[5,9]}` under
`limit(1)`, `add(2,4)`. -/
theorem C6_counterexample :
    ((rangeset_add_range (rangeset_limit (rangeset_new "r" 0) 1) 5 9).1 = 0) ∧
    (∃ x ∈ (rangeset_add_range (rangeset_limit (rangeset_new "r" 0) 1) 5 9).2.range_list,
      x.s ≤ 4 + 1 ∧ 2 ≤ x.e + 1) ∧
    ((rangeset_add_range
        (rangeset_add_range (rangeset_limit (rangeset_new "r" 0) 1) 5 9).2 2 4).1 =
      -ENOMEM) := by decide

/-- C6 (amended): on a canonical rangeset, `add(s, e)` fails with
`-ENOMEM` iff the headroom `nr_ranges` is zero and the code must call
`alloc_range` — which happens exactly when `[s, e]` neither overlaps
nor is left-adjacent to any stored range (`needsAlloc`); an add whose
interval overlaps or is left-adjacent to existing ranges allocates
nothing and succeeds, never shrinking the headroom. -/
theorem C6_rangeset_add_enomem (r : Rangeset) (s e : Nat)
    (hc : canonical r.range_list) (hse : s ≤ e) :
    ((rangeset_add_range r s e).1 = -ENOMEM ↔
      r.nr_ranges = 0 ∧ needsAlloc r.range_list s e) ∧
    (¬ needsAlloc r.range_list s e →
      (rangeset_add_range r s e).1 = 0 ∧
      r.nr_ranges ≤ (rangeset_add_range r s e).2.nr_ranges) := by
  have h := rangeset_add_range_spec r s e hc hse
  refine ⟨h.2.1, fun hna => ⟨?_, h.2.2.2.2 hna⟩⟩
  rcases h.2.2.2.1 with h0 | h0
  · exact absurd (h.2.1.mp h0).2 hna
  · exact h0

theorem C6_witness :
    (rangeset_add_range ⟨[Range.mk 0 0], 0, "w6", 0⟩ 2 2).1 = -ENOMEM :=
  (C6_rangeset_add_enomem ⟨[Range.mk 0 0], 0, "w6", 0⟩ 2 2
    ⟨by simp, List.chain'_singleton _⟩ (by decide)).1.mpr (by decide)

/-- C7: the claimed canonical form is violated by the code at a
reachable input.  From an empty rangeset, `add(0,1)`, `add(5,9)` and
`remove(1, 2^64 - 1)` each return 0, but in the remove's `x != y` arm
the unsigned `x->s = e + 1` (rangeset.c:240) wraps to 0, so
`if (x->s > x->e)` is false and the corrupted range is kept: the
stored list becomes `[[0,0], [0,9]]`, whose starts are not strictly
ascending and whose ranges overlap — `canonical` fails on it. -/
theorem C7_remove_wrap_bug :
    (rangeset_add_range (rangeset_new "r7" 0) 0 1).1 = 0 ∧
    (rangeset_add_range (rangeset_add_range (rangeset_new "r7" 0) 0 1).2 5 9).1 = 0 ∧
    (rangeset_remove_range
      (rangeset_add_range (rangeset_add_range (rangeset_new "r7" 0) 0 1).2 5 9).2
      1 (2 ^ 64 - 1)).1 = 0 ∧
    (rangeset_remove_range
      (rangeset_add_range (rangeset_add_range (rangeset_new "r7" 0) 0 1).2 5 9).2
      1 (2 ^ 64 - 1)).2.range_list = [Range.mk 0 0, Range.mk 0 9] ∧
    ¬ canonical (rangeset_remove_range
      (rangeset_add_range (rangeset_add_range (rangeset_new "r7" 0) 0 1).2 5 9).2
      1 (2 ^ 64 - 1)).2.range_list := by
  refine ⟨by decide, by decide, by decide, by decide, ?_⟩
  intro hc
  rw [show (rangeset_remove_range
      (rangeset_add_range (rangeset_add_range (rangeset_new "r7" 0) 0 1).2 5 9).2
      1 (2 ^ 64 - 1)).2.range_list = [Range.mk 0 0, Range.mk 0 9] by decide] at hc
  have h2 := (List.chain'_cons.1 hc.2).1
  exact absurd h2 (by decide)

/-- C8 as stated is false on the code: when `[s, e]` overlaps an
existing range, `add(s, e)` is a no-op but `remove(s, e)` genuinely
removes, so the pair does not restore the prior state.  Here:
`{[0,10]}`, `add(2,3)` (no-op, returns 0) then `remove(2,3)` (splits,
returns 0) leaves `{[0,1],[4,10]}`. -/
theorem C8_counterexample :
    ((rangeset_add_range (rangeset_add_range (rangeset_new "r" 0) 0 10).2 2 3).1 = 0) ∧
    ((rangeset_remove_range
        (rangeset_add_range
          (rangeset_add_range (rangeset_new "r" 0) 0 10).2 2 3).2 2 3).1 = 0) ∧
    ((rangeset_remove_range
        (rangeset_add_range
          (rangeset_add_range (rangeset_new "r" 0) 0 10).2 2 3).2 2 3).2 ≠
      (rangeset_add_range (rangeset_new "r" 0) 0 10).2) := by decide

/-- C8 (amended): for every canonical rangeset `R` and interval
`[s, e]` with `s ≤ e` that overlaps no stored range of `R` (adjacency
allowed), a successful `add(s, e)` followed by a successful
`remove(s, e)` returns `R` to its exact prior state (list and
headroom). -/
theorem C8_add_remove_inverse (r : Rangeset) (s e : Nat)
    (hc : canonical r.range_list) (hse : s ≤ e)
    (hdisj : ∀ x ∈ r.range_list, e < x.s ∨ x.e < s)
    (r1 r2 : Rangeset)
    (h1 : rangeset_add_range r s e = (0, r1))
    (h2 : rangeset_remove_range r1 s e = (0, r2)) :
    r2 = r :=
  rangeset_add_remove_restore r s e hc hse hdisj r1 r2 h1 h2

theorem C8_witness :
    (rangeset_remove_range
      (rangeset_add_range ⟨[Range.mk 5 9], -2, "w8", 0⟩ 1 3).2 1 3).2 =
      ⟨[Range.mk 5 9], -2, "w8", 0⟩ :=
  C8_add_remove_inverse ⟨[Range.mk 5 9], -2, "w8", 0⟩ 1 3
    ⟨by simp, List.chain'_singleton _⟩ (by decide) (by decide)
    (rangeset_add_range ⟨[Range.mk 5 9], -2, "w8", 0⟩ 1 3).2
    (rangeset_remove_range
      (rangeset_add_range ⟨[Range.mk 5 9], -2, "w8", 0⟩ 1 3).2 1 3).2
    (by decide) (by decide)

/-- C9: along any sequence of attach and detach operations that
respects the call-site discipline of coproc.c (attach gets a
registered coproc, detach gets a vcoproc from the domain's instance
list), the domain's `num_instances` never exceeds the number of
registered coprocs — at every intermediate point — and neither of the
two `BUG_ON` assertions (`num_instances >= num_coprocs` before the
attach increment, `!num_instances` before the detach decrement) ever
fires.  The driver's `vcoproc_is_created` is modelled from the spec
(§4.5) as "the domain already holds an instance of this coproc". -/
theorem C9_domain_bound (N : Nat) (ops : List DomOp)
    (hv : validTrace N ⟨[], 0⟩ ops) :
    ((domRun N ⟨[], 0⟩ ops).2 = false) ∧
    (∀ pre suf, ops = pre ++ suf →
      (domRun N ⟨[], 0⟩ pre).1.num_instances ≤ N) := by
  have hinv0 : DomInv N ⟨[], 0⟩ := ⟨List.nodup_nil, by simp, rfl⟩
  refine ⟨(domRun_no_bug hinv0 hv).1, ?_⟩
  intro pre suf hps
  have hvp : validTrace N ⟨[], 0⟩ pre := validTrace_append_left (hps ▸ hv)
  obtain ⟨hnd, hlt, hlen⟩ := (domRun_no_bug hinv0 hvp).2
  rw [hlen]
  exact nodup_bounded_length hnd hlt

theorem C9_witness :
    (domRun 1 ⟨[], 0⟩ [DomOp.attach 0 none none, DomOp.detach 0 none]).2 = false :=
  (C9_domain_bound 1 [DomOp.attach 0 none none, DomOp.detach 0 none] (by decide)).1

/-- C10: `rangeset_swap(a, b)` exchanges exactly the two range lists;
each set keeps its own allocation headroom `nr_ranges`, name and
flags, so a limit installed on a set object keeps governing that
object rather than the contents it gave away. -/
theorem C10_rangeset_swap_frame (a b : Rangeset) :
    (rangeset_swap a b).1.range_list = b.range_list ∧
    (rangeset_swap a b).2.range_list = a.range_list ∧
    (rangeset_swap a b).1.nr_ranges = a.nr_ranges ∧
    (rangeset_swap a b).1.name = a.name ∧
    (rangeset_swap a b).1.flags = a.flags ∧
    (rangeset_swap a b).2.nr_ranges = b.nr_ranges ∧
    (rangeset_swap a b).2.name = b.name ∧
    (rangeset_swap a b).2.flags = b.flags :=
  ⟨rfl, rfl, rfl, rfl, rfl, rfl, rfl, rfl⟩

end XenVerify
